import Mathlib

set_option maxRecDepth 8000

namespace StepTranslate

/-- Python's notion of a whitespace character (`str.isspace` / regex `\s`
on `str` patterns): ASCII whitespace, the C0 separator block, NEL, NBSP and
the Unicode space characters. -/
def isPySpace (c : Char) : Bool :=
  let n := c.toNat
  decide ((9 ≤ n ∧ n ≤ 13) ∨ (28 ≤ n ∧ n ≤ 31) ∨ n = 32 ∨ n = 133 ∨ n = 160 ∨
    n = 5760 ∨ (8192 ≤ n ∧ n ≤ 8202) ∨ n = 8232 ∨ n = 8233 ∨ n = 8239 ∨
    n = 8287 ∨ n = 12288)

/-- `re.sub(r'\s+', ' ', ·)`: collapse every maximal whitespace run to one
single space; `inWs` records whether we are inside a run whose space has
already been emitted. -/
def collapseGo (inWs : Bool) : List Char → List Char
  | [] => []
  | c :: rest =>
    if isPySpace c then
      if inWs then collapseGo true rest else ' ' :: collapseGo true rest
    else c :: collapseGo false rest

/-- `re.sub(r'\s+', ' ', l)`. -/
def collapseWs (l : List Char) : List Char := collapseGo false l

/-- Remove trailing Python whitespace (the right half of `str.strip()`). -/
def rstrip : List Char → List Char
  | [] => []
  | c :: rest =>
    let r := rstrip rest
    if r = [] ∧ isPySpace c then [] else c :: r

/-- Python `str.strip()`: drop leading and trailing whitespace. -/
def pyStrip (l : List Char) : List Char := rstrip (l.dropWhile isPySpace)

/-- `re.sub(r'\s+', ' ', l).strip()`, the normalization applied to every
candidate passage text in `parsers.py`. -/
def clean (l : List Char) : List Char := pyStrip (collapseWs l)

/-- The characters of `l` strictly after its last `'\n'` (`l` itself when it
has no newline). -/
def afterLastNewline (l : List Char) : List Char :=
  (l.reverse.takeWhile (fun c => ¬(c = '\n'))).reverse

/-- Engine of `re.split(r'\n\s*\n', s)`.  The second argument is the number
of separator characters still to be skipped.  A match starts at a `'\n'`
whose following maximal whitespace run contains another `'\n'`; the greedy
`\s*` makes the match extend to the last `'\n'` of that run. -/
def reGo : List Char → Nat → List (List Char)
  | _ :: rest, k + 1 => reGo rest k
  | [], _ => [[]]
  | c :: rest, 0 =>
    let run := rest.takeWhile isPySpace
    if c = '\n' ∧ run.contains '\n' then
      [] :: reGo rest (run.length - (afterLastNewline run).length)
    else
      match reGo rest 0 with
      | [] => [[c]]
      | p :: ps => (c :: p) :: ps

/-- `re.split(r'\n\s*\n', s)` over character lists. -/
def reSplitParas (s : List Char) : List (List Char) := reGo s 0

/-- Modelled from the spec: split on paragraph breaks, "defined as one or
more blank lines (a run of whitespace containing at least two
newline-equivalents)".  A maximal whitespace run containing at least two
`'\n'` characters is removed as one separator.  The second argument skips
the remaining characters of a separator already recognised. -/
def specGo : List Char → Nat → List (List Char)
  | _ :: rest, k + 1 => specGo rest k
  | [], _ => [[]]
  | c :: rest, 0 =>
    let run := (c :: rest).takeWhile isPySpace
    if 2 ≤ run.count '\n' then
      [] :: specGo rest (run.length - 1)
    else
      match specGo rest 0 with
      | [] => [[c]]
      | p :: ps => (c :: p) :: ps

/-- Modelled from the spec: paragraph splitting at whitespace runs that
contain at least two newlines. -/
def specSplitParas (s : List Char) : List (List Char) := specGo s 0

/-- Prepend a character to the first paragraph of a split. -/
def consHead (c : Char) : List (List Char) → List (List Char)
  | [] => [[c]]
  | p :: ps => (c :: p) :: ps

/-- Prepend a word to the first paragraph of a split. -/
def prependHead (w : List Char) : List (List Char) → List (List Char)
  | [] => [w]
  | p :: ps => (w ++ p) :: ps

/-- Two paragraphs that agree up to all-whitespace affixes. -/
def WsAffix (p q : List Char) : Prop :=
  ∃ w₁ w₂, (∀ x ∈ w₁, isPySpace x = true) ∧ (∀ x ∈ w₂, isPySpace x = true) ∧
    p = w₁ ++ q ++ w₂

/-- The two splitters stay aligned: the first paragraphs agree up to a
trailing whitespace suffix, the later ones up to whitespace affixes on
both sides. -/
def AlignedSplits : List (List Char) → List (List Char) → Prop
  | p :: ps, q :: qs =>
      (∃ w, (∀ x ∈ w, isPySpace x = true) ∧ p = q ++ w) ∧
      List.Forall₂ WsAffix ps qs
  | _, _ => False

/-- `min_length` defaults to 5 in the source; paragraphs are normalized and
the empty or too short ones are dropped. -/
def splitIntoParagraphs (text : List Char) (min_length : Nat := 5) :
    List (List Char) :=
  ((reSplitParas text).map clean).filter
    (fun cleaned => !cleaned.isEmpty && min_length ≤ cleaned.length)

/-- The closed set of style tags of a `Passage`. -/
inductive Style where
  | title
  | heading
  | author
  | paragraph
deriving DecidableEq, Repr

/-- A text passage extracted from a document (`parsers.Passage`). -/
structure Passage where
  id    : String
  text  : List Char
  page  : Option Nat := none
  style : Style := .paragraph
deriving DecidableEq, Repr

/-- Loop body of `parse_txt`: `i` is the `enumerate` index, `acc` the
passages appended so far; `uuid.uuid4()` is modelled by the id stream
`gen` sampled at the count of ids drawn so far (here equal to `i`). -/
def txtGo (gen : Nat → String) : List (List Char) → Nat → List Passage →
    List Passage
  | [], _, acc => acc
  | p :: rest, i, acc =>
    let style : Style :=
      if i = 0 ∧ p.length < 100 then .title
      else if i = 1 ∧ p.length < 80 ∧ ¬acc.isEmpty ∧
          acc.head?.map Passage.style = some .title then .author
      else .paragraph
    txtGo gen rest (i + 1) (acc ++ [⟨gen i, p, none, style⟩])

/-- `parse_txt`: decode (out of scope, the decoded text is the input),
split into paragraphs, classify the first two heuristically. -/
def parse_txt (gen : Nat → String) (text : List Char) : List Passage :=
  txtGo gen (splitIntoParagraphs text) 0 []

/-! ## PDF strategy (`parse_pdf`)

PyMuPDF's `page.get_text("dict")["blocks"]` tree is modelled by `PdfDoc`;
the dict `.get` defaults of the source (`size` 12, `text` "", `flags` 0)
are elided by making the fields total.  Font sizes are embedded as exact
rationals. -/

/-- One text span: its text, font size and style flags. -/
structure Span where
  text  : List Char
  size  : ℚ
  flags : Nat
deriving DecidableEq, Repr

/-- One line of a text block. -/
structure Line where
  spans : List Span
deriving DecidableEq, Repr

/-- One block; `typ` is the dict's `"type"` field (0 = text block). -/
structure Block where
  typ   : Nat
  lines : List Line
deriving DecidableEq, Repr

/-- A page is its list of blocks. -/
abbrev PdfPage := List Block

/-- A document is its list of pages. -/
abbrev PdfDoc := List PdfPage

/-- Pass 1 contribution of one span: `[size] * len(span["text"].strip())`,
skipped when the stripped text is empty. -/
def spanWeightedSizes (sp : Span) : List ℚ :=
  let text := pyStrip sp.text
  if text.isEmpty then [] else List.replicate text.length sp.size

/-- Pass 1 of `parse_pdf`: every span of every text block of every page
contributes its size once per character of its stripped text. -/
def allFontSizes (doc : PdfDoc) : List ℚ :=
  doc.flatMap fun page =>
    (page.filter fun b => b.typ == 0).flatMap fun b =>
      b.lines.flatMap fun ln => ln.spans.flatMap spanWeightedSizes

/-- `max(set(l), key=l.count)`.  Python iterates the set in an unspecified
hash order and `max` keeps the first maximum it meets; the embedding uses
`l.dedup` and keeps the earlier element on ties.  All theorems stated about
it are insensitive to the tie-breaking order. -/
def pyModeMax (l : List ℚ) : ℚ :=
  match l.dedup with
  | [] => 12
  | d :: ds => ds.foldl (fun best x => if l.count best < l.count x then x else best) d

/-- The document's "normal" font size: the mode of `allFontSizes`, or 12
when the document has no span text. -/
def pdfNormalSize (doc : PdfDoc) : ℚ :=
  let sizes := allFontSizes doc
  if sizes.isEmpty then 12 else pyModeMax sizes

/-- Modelled from the claim's words (C2): the multiset in which each
character of a span's text — unstripped, as the claim states it —
contributes one occurrence of that span's size. -/
def rawFontSizes (doc : PdfDoc) : List ℚ :=
  doc.flatMap fun page =>
    (page.filter fun b => b.typ == 0).flatMap fun b =>
      b.lines.flatMap fun ln =>
        ln.spans.flatMap fun sp => List.replicate sp.text.length sp.size

/-- Modelled from the claim's words (C2): the mode of the raw
character-weighted multiset, 12 when empty. -/
def rawNormalSize (doc : PdfDoc) : ℚ :=
  let sizes := rawFontSizes doc
  if sizes.isEmpty then 12 else pyModeMax sizes

/-- `line_text`: concatenation of the span texts of one line. -/
def lineText (ln : Line) : List Char :=
  ln.spans.foldl (fun acc sp => acc ++ sp.text) []

/-- Running maximum of the span sizes of a block, started at 0. -/
def blockMaxFontSize (b : Block) : ℚ :=
  b.lines.foldl
    (fun cur ln => ln.spans.foldl (fun cur sp => if cur < sp.size then sp.size else cur) cur) 0

/-- Whether any span of the block has the bold flag (bit 16) set. -/
def blockIsBold (b : Block) : Bool :=
  b.lines.any fun ln => ln.spans.any fun sp => (sp.flags &&& 16) != 0

/-- `" ".join(parts)`. -/
def joinSpace (parts : List (List Char)) : List Char :=
  List.intercalate [' '] parts

/-- The cleaned text of a block: lines joined by single spaces, whitespace
collapsed, stripped. -/
def blockText (b : Block) : List Char :=
  clean (joinSpace (b.lines.map lineText))

/-- `size_ratio`: guarded division by the normal size. -/
def pdfSizeRatio (normal_size : ℚ) (max_font_size : ℚ) : ℚ :=
  if 0 < normal_size then max_font_size / normal_size else 1

/-- The style branch of `parse_pdf`'s second pass, exactly as in the
source: 1.5 and 1.2 are the rationals 3/2 and 6/5. -/
def pdfStyle (size_ratio : ℚ) (is_bold : Bool) (textLen : Nat)
    (page_num : Nat) (prevTitle : Bool) : Style :=
  if 3 / 2 ≤ size_ratio then .title
  else if 6 / 5 ≤ size_ratio ∨ is_bold = true then
    if textLen < 100 then
      if page_num = 1 ∧ prevTitle = true then .author else .heading
    else .paragraph
  else .paragraph

/-- Modelled from the claim's words (C1): the same classification written
as disjoint cases. -/
def claimPdfStyle (r : ℚ) (bold : Bool) (n : Nat) (page : Nat)
    (prevTitle : Bool) : Style :=
  if 3 / 2 ≤ r then .title
  else if (6 / 5 ≤ r ∨ bold = true) ∧ n < 100 ∧ page = 1 ∧ prevTitle = true then .author
  else if (6 / 5 ≤ r ∨ bold = true) ∧ n < 100 then .heading
  else if (6 / 5 ≤ r ∨ bold = true) ∧ 100 ≤ n then .paragraph
  else .paragraph

/-- `len(passages) >= 1 and passages[-1].style == "title"`. -/
def lastIsTitle (acc : List Passage) : Bool :=
  match acc.getLast? with
  | some prev => prev.style == Style.title
  | none => false

/-- Pass 2 treatment of one block: skip non-text and too short blocks,
otherwise classify and append (`uuid.uuid4()` is modelled by the id stream
`gen` sampled at the number of passages created so far). -/
def pdfBlockStep (gen : Nat → String) (normal_size : ℚ) (page_num : Nat)
    (acc : List Passage) (b : Block) : List Passage :=
  if b.typ ≠ 0 then acc
  else
    let block_text := blockText b
    if block_text.isEmpty ∨ block_text.length < 3 then acc
    else
      let size_ratio := pdfSizeRatio normal_size (blockMaxFontSize b)
      let style := pdfStyle size_ratio (blockIsBold b) block_text.length page_num
        (lastIsTitle acc)
      acc ++ [⟨gen acc.length, block_text, some page_num, style⟩]

/-- Pass 2 over the pages, `enumerate(doc, start=1)`. -/
def pdfPagesGo (gen : Nat → String) (normal_size : ℚ) :
    List PdfPage → Nat → List Passage → List Passage
  | [], _, acc => acc
  | page :: rest, page_num, acc =>
      pdfPagesGo gen normal_size rest (page_num + 1)
        (page.foldl (pdfBlockStep gen normal_size page_num) acc)

/-- `parse_pdf`: first pass computes the baseline, second pass extracts. -/
def parse_pdf (gen : Nat → String) (doc : PdfDoc) : List Passage :=
  pdfPagesGo gen (pdfNormalSize doc) doc 1 []

/-! ## DOCX strategy (`parse_docx`) -/

/-- One python-docx paragraph: its named style (`para.style.name`, absent
when `para.style` is `None`) and its raw text. -/
structure DocxPara where
  styleName : Option (List Char)
  text      : List Char
deriving DecidableEq, Repr

/-- The style chain of `parse_docx`, as a function of the loop state it
reads: `noneYet` is `not passages` and `n` the cleaned length. -/
def docxParaStyle (noneYet : Bool) (style_name : List Char) (n : Nat) : Style :=
  if style_name = "Title".toList then .title
  else if "Heading".toList.isPrefixOf style_name then .heading
  else if style_name = "Subtitle".toList ∨ (noneYet ∧ n < 80) then
    if noneYet then .author else .heading
  else .paragraph

/-- Loop body of `parse_docx` for one paragraph. -/
def docxStep (gen : Nat → String) (acc : List Passage) (para : DocxPara) :
    List Passage :=
  let text := pyStrip para.text
  if text.isEmpty then acc
  else
    let cleaned := clean text
    let style_name := para.styleName.getD []
    let style := docxParaStyle acc.isEmpty style_name cleaned.length
    if 5 < cleaned.length ∨ style = .title ∨ style = .heading ∨ style = .author then
      acc ++ [⟨gen acc.length, cleaned, none, style⟩]
    else acc

/-- `parse_docx` over the document's paragraphs in order. -/
def parse_docx (gen : Nat → String) (paras : List DocxPara) : List Passage :=
  paras.foldl (docxStep gen) []

/-! ## Type detection and dispatch -/

/-- `str.lower()` (modelled characterwise; the tags and extensions the
source compares against are ASCII). -/
def pyLower (l : List Char) : List Char := l.map Char.toLower

/-- `pathlib.Path(filename).name`: the final path component (empty and `.`
components are dropped by pathlib's parsing). -/
def pathName (filename : List Char) : List Char :=
  ((filename.splitOn '/').filter fun comp => ¬(comp = [] ∨ comp = ['.'])).getLastD []

/-- `pathlib.Path(...).suffix`: the part of the name from its last dot,
provided that dot is neither the first nor the last character. -/
def pySuffix (name : List Char) : List Char :=
  let tail := name.reverse.takeWhile fun c => ¬(c = '.')
  if tail.length = name.length then []
  else
    let i := name.length - 1 - tail.length
    if 0 < i ∧ i < name.length - 1 then name.drop i else []

/-- The extension table of `detect_file_type`. -/
def ext_map : List (List Char × List Char) :=
  [(".pdf".toList, "pdf".toList), (".txt".toList, "txt".toList),
   (".text".toList, "txt".toList), (".docx".toList, "docx".toList)]

/-- The content-type table of `detect_file_type`. -/
def content_map : List (List Char × List Char) :=
  [("application/pdf".toList, "pdf".toList),
   ("application/x-pdf".toList, "pdf".toList),
   ("text/plain".toList, "txt".toList),
   ("application/vnd.openxmlformats-officedocument.wordprocessingml.document".toList,
    "docx".toList)]

/-- `detect_file_type(filename, content_type)`: extension first, then the
declared content-type (`if content_type:` makes the empty string behave
like `None`), else `None`. -/
def detect_file_type (filename : List Char)
    (content_type : Option (List Char) := none) : Option (List Char) :=
  let ext := pyLower (pySuffix (pathName filename))
  match ext_map.lookup ext with
  | some t => some t
  | none =>
    match content_type with
    | some ct => if ct.isEmpty then none else content_map.lookup ct
    | none => none

/-- The readable state of one uploaded file: the text each of the three
format libraries would extract from its bytes (a pure function of the
bytes, so one record per file). -/
structure PFile where
  txtContent  : List Char
  pdfContent  : PdfDoc
  docxContent : List DocxPara

/-- `parse_document`: dictionary dispatch on `file_type.lower()`; the
`raise ValueError` of the source is the `Except.error` case, carrying the
same message. -/
def parse_document (gen : Nat → String) (f : PFile) (file_type : List Char) :
    Except (List Char) (List Passage) :=
  let ft := pyLower file_type
  if ft = "pdf".toList then .ok (parse_pdf gen f.pdfContent)
  else if ft = "txt".toList then .ok (parse_txt gen f.txtContent)
  else if ft = "docx".toList then .ok (parse_docx gen f.docxContent)
  else .error ("Unsupported file type: ".toList ++ file_type)

/-! ## Normalized-text predicate (C8) -/

/-- No two adjacent spaces. -/
def noDoubleSpace : List Char → Bool
  | c1 :: c2 :: rest => !(c1 == ' ' && c2 == ' ') && noDoubleSpace (c2 :: rest)
  | _ => true

/-- The spec's text invariant: non-empty, no leading or trailing
whitespace, every whitespace character is a single plain space. -/
def isNormalizedText (l : List Char) : Bool :=
  !l.isEmpty &&
  (match l.head? with | some c => !isPySpace c | none => false) &&
  (match l.getLast? with | some c => !isPySpace c | none => false) &&
  l.all (fun c => !isPySpace c || c == ' ') &&
  noDoubleSpace l

/-- Modelled from the claim's words (C3): styles of the retained plain-text
paragraphs as a function of their normalized lengths. -/
def claimTxtStyles : List Nat → List Style
  | [] => []
  | n0 :: rest =>
    (if n0 < 100 then Style.title else Style.paragraph) ::
    match rest with
    | [] => []
    | n1 :: rest2 =>
      (if n1 < 80 ∧ n0 < 100 then Style.author else Style.paragraph) ::
      rest2.map (fun _ => Style.paragraph)

/-- Modelled from the claim's words (C5): the DOCX style of a non-empty
paragraph, as a function of whether any passage was emitted yet, the named
style and the normalized length. -/
def claimDocxStyle (noneYet : Bool) (style_name : List Char) (n : Nat) : Style :=
  if style_name = "Title".toList then .title
  else if "Heading".toList.isPrefixOf style_name then .heading
  else if (style_name = "Subtitle".toList ∨ (noneYet = true ∧ n < 80)) ∧ noneYet = true then
    .author
  else if style_name = "Subtitle".toList ∧ noneYet = false then .heading
  else .paragraph

/-- Strip the (unstable) id of a passage, keeping text, page and style. -/
def eraseId (p : Passage) : Passage := { p with id := "" }

/-- Strip all ids from an extraction result. -/
def eraseIds : Except (List Char) (List Passage) → Except (List Char) (List Passage)
  | .ok l => .ok (l.map eraseId)
  | .error e => .error e

/-- The one-block document refuting C2 as stated: its raw,
character-weighted multiset (claim's words) is four 10s and seven 20s, so
its unique mode is 20, while the code's baseline — weighted by *stripped*
span length — is 10. -/
def c2Doc : PdfDoc :=
  [[⟨0, [⟨[⟨"aaaa".toList, 10, 0⟩, ⟨"  bbb  ".toList, 20, 0⟩]⟩]⟩]]

/-- A one-page document whose body runs at size 10 and whose short second
block runs at size 15 = 1.5 × the modal size. -/
def c1BodyBlock : Block :=
  ⟨0, [⟨[⟨"This is the main body text of the document here".toList, 10, 0⟩]⟩]⟩

/-- The 1.5 × block of `c1DocA`. -/
def c1TitleBlock : Block :=
  ⟨0, [⟨[⟨"Big Title".toList, 15, 0⟩]⟩]⟩

/-- One page: body block then the 1.5 × block. -/
def c1DocA : PdfDoc := [[c1BodyBlock, c1TitleBlock]]

/-- Body block of the 1.19 × example, modal size 100. -/
def c1BodyBlockB : Block :=
  ⟨0, [⟨[⟨List.replicate 60 'b', 100, 0⟩]⟩]⟩

/-- A non-bold block of 50 characters at size 119 = 1.19 × the modal
size. -/
def c1SmallBlockB : Block :=
  ⟨0, [⟨[⟨List.replicate 50 'a', 119, 0⟩]⟩]⟩

/-- One page: body block then the 1.19 × block. -/
def c1DocB : PdfDoc := [[c1BodyBlockB, c1SmallBlockB]]

/-! ## C6: type detection -/

/-- Claim C6: `detect_file_type` inspects the lowercased filename extension
first; only when the extension is unrecognized does it consult the declared
content-type through an exact-match table; when neither matches — in
particular when no content-type is supplied — it returns the non-fatal
`none`.  `report.PDF` with no content-type resolves to pdf, `data.bin`
with `text/plain` resolves to txt, and `data.bin` with no or an
unrecognized content-type is unsupported. -/
theorem detect_file_type_spec :
    (∀ fn ct t, ext_map.lookup (pyLower (pySuffix (pathName fn))) = some t →
      detect_file_type fn ct = some t) ∧
    (∀ fn ct, ext_map.lookup (pyLower (pySuffix (pathName fn))) = none →
      detect_file_type fn ct =
        (match ct with
         | some c => if c.isEmpty then none else content_map.lookup c
         | none => none)) ∧
    detect_file_type "report.PDF".toList none = some "pdf".toList ∧
    detect_file_type "data.bin".toList (some "text/plain".toList) = some "txt".toList ∧
    detect_file_type "data.bin".toList none = none ∧
    detect_file_type "data.bin".toList (some "application/json".toList) = none := by
  refine ⟨?_, ?_, by decide, by decide, by decide, by decide⟩
  · intro fn ct t h
    simp only [detect_file_type]
    rw [h]
  · intro fn ct h
    simp only [detect_file_type]
    rw [h]
    rfl

/-- Witness for C6 at a concrete input with the hypotheses discharged. -/
theorem detect_file_type_spec_witness :
    detect_file_type "notes.TXT".toList (some "application/pdf".toList) =
      some "txt".toList :=
  detect_file_type_spec.1 "notes.TXT".toList (some "application/pdf".toList)
    "txt".toList (by decide)

/-! ## C7 and C10: dispatch -/

/-- Claim C7: `parse_document` maps each recognized format tag to exactly
that strategy's passage list, and raises (one `Except.error`, no partial
passage list) on anything else. -/
theorem parse_document_dispatch :
    (∀ gen f, parse_document gen f "pdf".toList = .ok (parse_pdf gen f.pdfContent)) ∧
    (∀ gen f, parse_document gen f "txt".toList = .ok (parse_txt gen f.txtContent)) ∧
    (∀ gen f, parse_document gen f "docx".toList = .ok (parse_docx gen f.docxContent)) ∧
    (∀ gen f ft, pyLower ft ≠ "pdf".toList → pyLower ft ≠ "txt".toList →
      pyLower ft ≠ "docx".toList →
      parse_document gen f ft = .error ("Unsupported file type: ".toList ++ ft) ∧
      ∀ l, parse_document gen f ft ≠ .ok l) := by
  refine ⟨fun gen f => rfl, fun gen f => rfl, fun gen f => rfl, ?_⟩
  intro gen f ft h1 h2 h3
  have he : parse_document gen f ft = .error ("Unsupported file type: ".toList ++ ft) := by
    simp only [parse_document]
    rw [if_neg h1, if_neg h2, if_neg h3]
  exact ⟨he, fun l hl => by rw [he] at hl; exact Except.noConfusion hl⟩

/-- Witness for C7 at the unrecognized tag `xml`. -/
theorem parse_document_dispatch_witness :
    parse_document (fun _ => "") ⟨[], [], []⟩ "xml".toList =
      .error ("Unsupported file type: ".toList ++ "xml".toList) :=
  (parse_document_dispatch.2.2.2 (fun _ => "") ⟨[], [], []⟩ "xml".toList
    (by decide) (by decide) (by decide)).1

/-- Claim C10 (implicit): dispatch is case-insensitive — any tag whose
Python-lowercased form is `pdf`/`txt`/`docx` reaches the corresponding
strategy, and the unsupported-format error is raised exactly for the other
tags. -/
theorem parse_document_case_insensitive :
    (∀ gen f ft, pyLower ft = "pdf".toList →
      parse_document gen f ft = .ok (parse_pdf gen f.pdfContent)) ∧
    (∀ gen f ft, pyLower ft = "txt".toList →
      parse_document gen f ft = .ok (parse_txt gen f.txtContent)) ∧
    (∀ gen f ft, pyLower ft = "docx".toList →
      parse_document gen f ft = .ok (parse_docx gen f.docxContent)) ∧
    (∀ gen f ft, pyLower ft ≠ "pdf".toList → pyLower ft ≠ "txt".toList →
      pyLower ft ≠ "docx".toList →
      parse_document gen f ft = .error ("Unsupported file type: ".toList ++ ft)) ∧
    (∀ gen f, parse_document gen f "PDF".toList = .ok (parse_pdf gen f.pdfContent)) ∧
    (∀ gen f, parse_document gen f "Txt".toList = .ok (parse_txt gen f.txtContent)) := by
  have hpdf : ∀ gen f ft, pyLower ft = "pdf".toList →
      parse_document gen f ft = .ok (parse_pdf gen f.pdfContent) := by
    intro gen f ft h
    simp only [parse_document]
    rw [if_pos h]
  have htxt : ∀ gen f ft, pyLower ft = "txt".toList →
      parse_document gen f ft = .ok (parse_txt gen f.txtContent) := by
    intro gen f ft h
    simp only [parse_document]
    rw [if_neg (by rw [h]; decide), if_pos h]
  refine ⟨hpdf, htxt, ?_, ?_, fun gen f => hpdf gen f _ (by decide),
    fun gen f => htxt gen f _ (by decide)⟩
  · intro gen f ft h
    simp only [parse_document]
    rw [if_neg (by rw [h]; decide), if_neg (by rw [h]; decide), if_pos h]
  · intro gen f ft h1 h2 h3
    simp only [parse_document]
    rw [if_neg h1, if_neg h2, if_neg h3]

/-- Witness for C10 at the mixed-case tag `DOCX`. -/
theorem parse_document_case_insensitive_witness :
    parse_document (fun _ => "") ⟨[], [], []⟩ "DOCX".toList = .ok [] :=
  parse_document_case_insensitive.2.2.1 (fun _ => "") ⟨[], [], []⟩
    "DOCX".toList (by decide)

/-! ## C5: DOCX classification and inclusion -/

/-- The style chain of `parse_docx` agrees with the claim's case analysis. -/
lemma docxStyle_eq_claim (noneYet : Bool) (sn : List Char) (n : Nat) :
    docxParaStyle noneYet sn n = claimDocxStyle noneYet sn n := by
  unfold docxParaStyle claimDocxStyle
  by_cases h1 : sn = "Title".toList
  · rw [if_pos h1, if_pos h1]
  · rw [if_neg h1, if_neg h1]
    by_cases h2 : "Heading".toList.isPrefixOf sn = true
    · rw [if_pos h2, if_pos h2]
    · rw [if_neg h2, if_neg h2]
      cases noneYet with
      | true =>
        by_cases h3 : sn = "Subtitle".toList ∨ (true = true ∧ n < 80)
        · rw [if_pos h3, if_pos rfl, if_pos ⟨h3, rfl⟩]
        · rw [if_neg h3, if_neg (fun hc => h3 hc.1),
            if_neg (fun hc => absurd hc.2 (by decide))]
      | false =>
        by_cases hsub : sn = "Subtitle".toList
        · rw [if_pos (Or.inl hsub), if_neg (by decide),
            if_neg (fun hc => absurd hc.2 (by decide)), if_pos ⟨hsub, rfl⟩]
        · have h3 : ¬(sn = "Subtitle".toList ∨ (false = true ∧ n < 80)) := by
            rintro (h | h)
            · exact hsub h
            · exact absurd h.1 (by decide)
          rw [if_neg h3, if_neg (fun hc => h3 hc.1),
            if_neg (fun hc => hsub hc.1)]

/-- Claim C5: for every non-blank DOCX paragraph, `parse_docx` classifies
it by its named style exactly as the claim's case analysis says, and
retains it iff the normalized length exceeds 5 or the style is
title/heading/author; a `Heading1` paragraph yields `heading` regardless of
position; blank paragraphs are skipped; the document is a left fold in
document order. -/
theorem parse_docx_classification :
    (∀ gen acc para, pyStrip para.text ≠ [] →
      docxStep gen acc para =
        (let cleaned := clean (pyStrip para.text)
         let st := claimDocxStyle acc.isEmpty (para.styleName.getD []) cleaned.length
         if 5 < cleaned.length ∨ st = .title ∨ st = .heading ∨ st = .author then
           acc ++ [⟨gen acc.length, cleaned, none, st⟩]
         else acc)) ∧
    (∀ gen acc para, pyStrip para.text = [] → docxStep gen acc para = acc) ∧
    (∀ gen acc, docxStep gen acc ⟨some "Heading1".toList, "Chapter One".toList⟩ =
      acc ++ [⟨gen acc.length, "Chapter One".toList, none, .heading⟩]) ∧
    (∀ gen paras, parse_docx gen paras = paras.foldl (docxStep gen) []) := by
  have hmain : ∀ gen acc para, pyStrip para.text ≠ [] →
      docxStep gen acc para =
        (let cleaned := clean (pyStrip para.text)
         let st := claimDocxStyle acc.isEmpty (para.styleName.getD []) cleaned.length
         if 5 < cleaned.length ∨ st = .title ∨ st = .heading ∨ st = .author then
           acc ++ [⟨gen acc.length, cleaned, none, st⟩]
         else acc) := by
    intro gen acc para h
    cases hp : pyStrip para.text with
    | nil => exact absurd hp h
    | cons a as =>
      simp only [docxStep, hp, List.isEmpty_cons, Bool.false_eq_true, if_false,
        docxStyle_eq_claim]
  refine ⟨hmain, ?_, ?_, fun gen paras => rfl⟩
  · intro gen acc para h
    simp only [docxStep, h, List.isEmpty_nil, if_true]
  · intro gen acc
    rw [hmain gen acc ⟨some "Heading1".toList, "Chapter One".toList⟩ (by decide)]
    have hc : clean (pyStrip "Chapter One".toList) = "Chapter One".toList := by decide
    have hsty : ∀ b : Bool, claimDocxStyle b
        ((Option.some "Heading1".toList).getD [])
        ("Chapter One".toList.length) = .heading := by
      intro b
      cases b <;> decide
    simp only [hc, hsty]
    rw [if_pos (by decide)]

/-- Witness for C5: the classification theorem applied to the paragraph
`John Doe` arriving first, which is styled `author` and retained. -/
theorem parse_docx_classification_witness :
    docxStep (fun _ => "") [] ⟨none, "John Doe".toList⟩ =
      [⟨"", "John Doe".toList, none, .author⟩] := by
  have h := parse_docx_classification.1 (fun _ => "") [] ⟨none, "John Doe".toList⟩
    (by decide)
  simpa using h

/-! ## C3: plain-text style classification -/

/-- From the third retained paragraph on, everything is a plain paragraph. -/
lemma txtGo_paragraph_styles (gen : Nat → String) :
    ∀ (ps : List (List Char)) (i : Nat) (acc : List Passage), 2 ≤ i →
      (txtGo gen ps i acc).map Passage.style =
        acc.map Passage.style ++ ps.map (fun _ => Style.paragraph) := by
  intro ps
  induction ps with
  | nil => intro i acc _; simp [txtGo]
  | cons p rest ih =>
    intro i acc h
    have h0 : ¬(i = 0 ∧ p.length < 100) := fun hc => by omega
    have h1 : ¬(i = 1 ∧ p.length < 80 ∧ ¬acc.isEmpty ∧
        acc.head?.map Passage.style = some Style.title) := fun hc => by
      have := hc.1; omega
    simp only [txtGo, if_neg h0, if_neg h1]
    rw [ih (i + 1) _ (by omega)]
    simp

/-- Claim C3: the first retained plain-text paragraph is `title` iff its
normalized length is under 100; the second is `author` iff its length is
under 80 and the first was a title; all later paragraphs are `paragraph`;
and the worked example extracts title/author/paragraph. -/
theorem parse_txt_styles :
    (∀ gen text, (parse_txt gen text).map Passage.style =
      claimTxtStyles ((splitIntoParagraphs text).map List.length)) ∧
    (parse_txt (fun _ => "") "Short Title\n\nJohn Doe\n\nThis is the body text of the document which is reasonably long.".toList).map
        (fun p => (p.text, p.style)) =
      [("Short Title".toList, Style.title), ("John Doe".toList, Style.author),
       ("This is the body text of the document which is reasonably long.".toList,
        Style.paragraph)] := by
  refine ⟨?_, by decide⟩
  intro gen text
  unfold parse_txt
  generalize splitIntoParagraphs text = ps
  match ps with
  | [] => simp [txtGo, claimTxtStyles]
  | [a] =>
    by_cases ha : a.length < 100 <;>
      simp [txtGo, claimTxtStyles, ha]
  | a :: b :: rest =>
    have hrest : ∀ acc, (txtGo gen rest 2 acc).map Passage.style =
        acc.map Passage.style ++ rest.map (fun _ => Style.paragraph) :=
      fun acc => txtGo_paragraph_styles gen rest 2 acc (by omega)
    by_cases ha : a.length < 100 <;> by_cases hb : b.length < 80 <;>
      simp [txtGo, claimTxtStyles, ha, hb, hrest, Function.comp_def, List.map_const']

/-! ## C2: the PDF baseline -/

/-- `foldl` argmax-by-count: the result is one of the candidates and its
count is maximal among them. -/
lemma foldl_mode_spec (l : List ℚ) :
    ∀ (ds : List ℚ) (d : ℚ),
      (ds.foldl (fun best x => if l.count best < l.count x then x else best) d) ∈ d :: ds ∧
      ∀ x ∈ d :: ds, l.count x ≤
        l.count (ds.foldl (fun best x => if l.count best < l.count x then x else best) d) := by
  intro ds
  induction ds with
  | nil =>
    intro d
    refine ⟨by simp, ?_⟩
    intro x hx
    simp at hx
    subst hx
    exact le_rfl
  | cons a ds ih =>
    intro d
    obtain ⟨hmem, hbound⟩ := ih (if l.count d < l.count a then a else d)
    simp only [List.foldl_cons]
    constructor
    · rcases List.mem_cons.mp hmem with h | h
      · rw [h]
        by_cases hc : l.count d < l.count a <;> simp [hc]
      · simp [h]
    · intro x hx
      rcases List.mem_cons.mp hx with h | h
      · subst h
        refine le_trans ?_ (hbound _ (List.mem_cons_self _ _))
        by_cases hc : l.count x < l.count a
        · rw [if_pos hc]
          exact le_of_lt hc
        · rw [if_neg hc]
      · rcases List.mem_cons.mp h with h2 | h2
        · subst h2
          refine le_trans ?_ (hbound _ (List.mem_cons_self _ _))
          by_cases hc : l.count d < l.count x
          · rw [if_pos hc]
          · rw [if_neg hc]
            omega
        · exact hbound x (List.mem_cons_of_mem _ h2)

/-- Amended claim C2: the baseline is 12 when no span text exists and is
otherwise a size of maximal weight in the multiset where each character of
a span's *stripped* text contributes one occurrence of that span's size
(`allFontSizes`); it is computed before pass 2, which uses that single
value throughout. -/
theorem pdf_baseline :
    (∀ doc, allFontSizes doc = [] → pdfNormalSize doc = 12) ∧
    (∀ doc, allFontSizes doc ≠ [] →
      pdfNormalSize doc ∈ allFontSizes doc ∧
      ∀ s : ℚ, (allFontSizes doc).count s ≤ (allFontSizes doc).count (pdfNormalSize doc)) ∧
    (∀ gen doc, parse_pdf gen doc = pdfPagesGo gen (pdfNormalSize doc) doc 1 []) := by
  refine ⟨?_, ?_, fun gen doc => rfl⟩
  · intro doc h
    simp [pdfNormalSize, h]
  · intro doc h
    have hne : (allFontSizes doc).isEmpty = false := by
      cases hl : allFontSizes doc
      · exact absurd hl h
      · rfl
    have hval : pdfNormalSize doc = pyModeMax (allFontSizes doc) := by
      simp [pdfNormalSize, hne]
    cases hd : (allFontSizes doc).dedup with
    | nil => exact absurd ((List.dedup_eq_nil (allFontSizes doc)).mp hd) h
    | cons d ds =>
      obtain ⟨hmem, hbound⟩ := foldl_mode_spec (allFontSizes doc) ds d
      have hmode : pyModeMax (allFontSizes doc) =
          ds.foldl (fun best x =>
            if (allFontSizes doc).count best < (allFontSizes doc).count x then x
            else best) d := by
        simp [pyModeMax, hd]
      constructor
      · rw [hval, hmode]
        exact List.mem_dedup.mp (hd ▸ hmem)
      · intro s
        rw [hval, hmode]
        by_cases hs : s ∈ allFontSizes doc
        · exact hbound s (hd ▸ List.mem_dedup.mpr hs)
        · rw [List.count_eq_zero_of_not_mem hs]
          exact Nat.zero_le _

/-- Witness for the amended C2 at a one-block document. -/
theorem pdf_baseline_witness :
    pdfNormalSize [[⟨0, [⟨[⟨"aaaa".toList, 10, 0⟩]⟩]⟩]] ∈
      allFontSizes [[⟨0, [⟨[⟨"aaaa".toList, 10, 0⟩]⟩]⟩]] :=
  (pdf_baseline.2.1 [[⟨0, [⟨[⟨"aaaa".toList, 10, 0⟩]⟩]⟩]] (by decide)).1

/-- Counterexample to C2 as stated: on `c2Doc` the raw multiset has unique
mode 20 but the code computes 10. -/
theorem pdf_baseline_raw_counterexample :
    rawFontSizes c2Doc = List.replicate 4 (10 : ℚ) ++ List.replicate 7 20 ∧
    rawNormalSize c2Doc = 20 ∧
    pdfNormalSize c2Doc = 10 := by decide

/-! ## C9: determinism modulo ids -/

/-- Lists equal after id erasure have the same length. -/
lemma length_of_map_eraseId {acc1 acc2 : List Passage}
    (h : acc1.map eraseId = acc2.map eraseId) : acc1.length = acc2.length := by
  have h' := congrArg List.length h
  simpa using h'

/-- Lists equal after id erasure are simultaneously empty. -/
lemma isEmpty_of_map_eraseId {acc1 acc2 : List Passage}
    (h : acc1.map eraseId = acc2.map eraseId) : acc1.isEmpty = acc2.isEmpty := by
  have hl := length_of_map_eraseId h
  cases acc1 <;> cases acc2 <;> simp_all

/-- Erasing ids commutes with the passage-style projection of the head. -/
lemma head?_style_of_map_eraseId {acc1 acc2 : List Passage}
    (h : acc1.map eraseId = acc2.map eraseId) :
    acc1.head?.map Passage.style = acc2.head?.map Passage.style := by
  have h' := congrArg (fun l => l.head?.map Passage.style) h
  simpa [List.head?_map, Option.map_map,
    show Passage.style ∘ eraseId = Passage.style from rfl] using h'

/-- Erasing ids commutes with the passage-style projection of the last
element. -/
lemma getLast?_style_of_map_eraseId {acc1 acc2 : List Passage}
    (h : acc1.map eraseId = acc2.map eraseId) :
    acc1.getLast?.map Passage.style = acc2.getLast?.map Passage.style := by
  have h' := congrArg (fun l => l.reverse.head?.map Passage.style) h
  simp only [← List.map_reverse, List.head?_map, Option.map_map] at h'
  rw [List.head?_reverse, List.head?_reverse] at h'
  simpa [show Passage.style ∘ eraseId = Passage.style from rfl] using h'

/-- `txtGo` is id-generator independent modulo id erasure. -/
lemma txtGo_map_eraseId (gen1 gen2 : Nat → String) :
    ∀ (ps : List (List Char)) (i : Nat) (acc1 acc2 : List Passage),
      acc1.map eraseId = acc2.map eraseId →
      (txtGo gen1 ps i acc1).map eraseId = (txtGo gen2 ps i acc2).map eraseId := by
  intro ps
  induction ps with
  | nil => intro i acc1 acc2 h; simpa [txtGo] using h
  | cons p rest ih =>
    intro i acc1 acc2 h
    have hempty := isEmpty_of_map_eraseId h
    have hhead := head?_style_of_map_eraseId h
    simp only [txtGo, hempty, hhead]
    apply ih
    simp [h, eraseId]

/-- The previous-title test only reads styles, so it survives id erasure. -/
lemma lastIsTitle_of_map_eraseId {acc1 acc2 : List Passage}
    (h : acc1.map eraseId = acc2.map eraseId) :
    lastIsTitle acc1 = lastIsTitle acc2 := by
  have hlast := getLast?_style_of_map_eraseId h
  unfold lastIsTitle
  cases h1 : acc1.getLast? <;> cases h2 : acc2.getLast? <;>
    rw [h1, h2] at hlast <;> simp_all

/-- `pdfBlockStep` is id-generator independent modulo id erasure. -/
lemma pdfBlockStep_map_eraseId (gen1 gen2 : Nat → String) (ns : ℚ) (pn : Nat)
    (b : Block) {acc1 acc2 : List Passage}
    (h : acc1.map eraseId = acc2.map eraseId) :
    (pdfBlockStep gen1 ns pn acc1 b).map eraseId =
      (pdfBlockStep gen2 ns pn acc2 b).map eraseId := by
  have hprev := lastIsTitle_of_map_eraseId h
  simp only [pdfBlockStep, hprev]
  by_cases ht : b.typ ≠ 0
  · rw [if_pos ht, if_pos ht]
    exact h
  · rw [if_neg ht, if_neg ht]
    by_cases hskip : ((blockText b).isEmpty = true ∨ (blockText b).length < 3)
    · rw [if_pos hskip, if_pos hskip]
      exact h
    · rw [if_neg hskip, if_neg hskip]
      simp [h, eraseId]

/-- One page of pass 2 is id-generator independent modulo id erasure. -/
lemma pdfPageFold_map_eraseId (gen1 gen2 : Nat → String) (ns : ℚ) (pn : Nat) :
    ∀ (page : PdfPage) {acc1 acc2 : List Passage},
      acc1.map eraseId = acc2.map eraseId →
      (page.foldl (pdfBlockStep gen1 ns pn) acc1).map eraseId =
        (page.foldl (pdfBlockStep gen2 ns pn) acc2).map eraseId := by
  intro page
  induction page with
  | nil => intro acc1 acc2 h; simpa using h
  | cons b rest ih =>
    intro acc1 acc2 h
    simp only [List.foldl_cons]
    exact ih (pdfBlockStep_map_eraseId gen1 gen2 ns pn b h)

/-- Pass 2 is id-generator independent modulo id erasure. -/
lemma pdfPagesGo_map_eraseId (gen1 gen2 : Nat → String) (ns : ℚ) :
    ∀ (pages : List PdfPage) (pn : Nat) (acc1 acc2 : List Passage),
      acc1.map eraseId = acc2.map eraseId →
      (pdfPagesGo gen1 ns pages pn acc1).map eraseId =
        (pdfPagesGo gen2 ns pages pn acc2).map eraseId := by
  intro pages
  induction pages with
  | nil => intro pn acc1 acc2 h; simpa [pdfPagesGo] using h
  | cons page rest ih =>
    intro pn acc1 acc2 h
    simp only [pdfPagesGo]
    exact ih (pn + 1) _ _ (pdfPageFold_map_eraseId gen1 gen2 ns pn page h)

/-- `docxStep` is id-generator independent modulo id erasure. -/
lemma docxStep_map_eraseId (gen1 gen2 : Nat → String) (para : DocxPara)
    {acc1 acc2 : List Passage} (h : acc1.map eraseId = acc2.map eraseId) :
    (docxStep gen1 acc1 para).map eraseId = (docxStep gen2 acc2 para).map eraseId := by
  have hempty := isEmpty_of_map_eraseId h
  simp only [docxStep, hempty]
  by_cases hskip : (pyStrip para.text).isEmpty = true
  · rw [if_pos hskip, if_pos hskip]
    exact h
  · rw [if_neg hskip, if_neg hskip]
    by_cases hkeep : (5 < (clean (pyStrip para.text)).length ∨
        docxParaStyle acc2.isEmpty (para.styleName.getD [])
          (clean (pyStrip para.text)).length = .title ∨
        docxParaStyle acc2.isEmpty (para.styleName.getD [])
          (clean (pyStrip para.text)).length = .heading ∨
        docxParaStyle acc2.isEmpty (para.styleName.getD [])
          (clean (pyStrip para.text)).length = .author)
    · rw [if_pos hkeep, if_pos hkeep]
      simp [h, eraseId]
    · rw [if_neg hkeep, if_neg hkeep]
      exact h

/-- The DOCX fold is id-generator independent modulo id erasure. -/
lemma parse_docx_map_eraseId (gen1 gen2 : Nat → String) :
    ∀ (paras : List DocxPara) {acc1 acc2 : List Passage},
      acc1.map eraseId = acc2.map eraseId →
      (paras.foldl (docxStep gen1) acc1).map eraseId =
        (paras.foldl (docxStep gen2) acc2).map eraseId := by
  intro paras
  induction paras with
  | nil => intro acc1 acc2 h; simpa using h
  | cons para rest ih =>
    intro acc1 acc2 h
    simp only [List.foldl_cons]
    exact ih (docxStep_map_eraseId gen1 gen2 para h)

/-- Claim C9: two runs of `parse_document` on the same file and format tag
differ at most in the generated ids — after erasing ids (texts, order,
styles and page numbers kept) the results are equal. -/
theorem extraction_deterministic :
    ∀ (gen1 gen2 : Nat → String) (f : PFile) (ft : List Char),
      eraseIds (parse_document gen1 f ft) = eraseIds (parse_document gen2 f ft) := by
  intro gen1 gen2 f ft
  simp only [parse_document]
  by_cases h1 : pyLower ft = "pdf".toList
  · rw [if_pos h1, if_pos h1]
    simp only [eraseIds, Except.ok.injEq]
    exact pdfPagesGo_map_eraseId gen1 gen2 _ _ 1 [] [] rfl
  · rw [if_neg h1, if_neg h1]
    by_cases h2 : pyLower ft = "txt".toList
    · rw [if_pos h2, if_pos h2]
      simp only [eraseIds, Except.ok.injEq]
      exact txtGo_map_eraseId gen1 gen2 _ 0 [] [] rfl
    · rw [if_neg h2, if_neg h2]
      by_cases h3 : pyLower ft = "docx".toList
      · rw [if_pos h3, if_pos h3]
        simp only [eraseIds, Except.ok.injEq]
        exact parse_docx_map_eraseId gen1 gen2 _ rfl
      · rw [if_neg h3, if_neg h3]

/-! ## C8: the text invariant.  Lemmas about `collapseGo`, `rstrip` and
`dropWhile` leading to `isNormalizedText` for every cleaned text. -/

/-- Every whitespace character surviving collapsing is a plain space. -/
lemma collapseGo_space : ∀ (l : List Char) (b : Bool) (c : Char),
    c ∈ collapseGo b l → isPySpace c = true → c = ' ' := by
  intro l
  induction l with
  | nil => intro b c hc _; simp [collapseGo] at hc
  | cons a rest ih =>
    intro b c hc hws
    simp only [collapseGo] at hc
    by_cases ha : isPySpace a
    · rw [if_pos ha] at hc
      cases b with
      | true => exact ih true c hc hws
      | false =>
        rcases List.mem_cons.mp hc with h | h
        · exact h
        · exact ih true c h hws
    · rw [if_neg ha] at hc
      rcases List.mem_cons.mp hc with h | h
      · subst h
        exact absurd hws ha
      · exact ih false c h hws

/-- After a space was just emitted, the next collapsed character is not
whitespace. -/
lemma collapseGo_true_head : ∀ (l : List Char) (c : Char) (z : List Char),
    collapseGo true l = c :: z → isPySpace c = false := by
  intro l
  induction l with
  | nil => intro c z hc; simp [collapseGo] at hc
  | cons a rest ih =>
    intro c z hc
    simp only [collapseGo] at hc
    by_cases ha : isPySpace a
    · rw [if_pos ha] at hc
      exact ih c z hc
    · rw [if_neg ha] at hc
      cases hc
      simpa using ha

/-- `noDoubleSpace` through a cons, by the head of the tail. -/
lemma noDoubleSpace_cons (c : Char) (l : List Char) :
    noDoubleSpace (c :: l) = ((match l.head? with
      | some c2 => !(c == ' ' && c2 == ' ')
      | none => true) && noDoubleSpace l) := by
  cases l <;> simp [noDoubleSpace]

/-- A non-whitespace character is not the space character. -/
lemma beq_space_eq_false {c : Char} (h : isPySpace c = false) : (c == ' ') = false := by
  cases hc : c == ' '
  · rfl
  · have : c = ' ' := by simpa using hc
    subst this
    simp [isPySpace] at h

/-- A Bool that is not true is false. -/
lemma bool_eq_false {b : Bool} (h : ¬b = true) : b = false := by
  cases b
  · rfl
  · exact absurd rfl h

/-- Collapsing never leaves two adjacent spaces. -/
lemma collapseGo_noDouble : ∀ (l : List Char) (b : Bool),
    noDoubleSpace (collapseGo b l) = true := by
  intro l
  induction l with
  | nil => intro b; simp [collapseGo, noDoubleSpace]
  | cons a rest ih =>
    intro b
    by_cases ha : isPySpace a = true
    · cases b with
      | true =>
        have hu : collapseGo true (a :: rest) = collapseGo true rest := by
          simp [collapseGo, ha]
        rw [hu]
        exact ih true
      | false =>
        have hu : collapseGo false (a :: rest) = ' ' :: collapseGo true rest := by
          simp [collapseGo, ha]
        rw [hu]
        cases hcr : collapseGo true rest with
        | nil => simp [noDoubleSpace]
        | cons c z =>
          have hc := collapseGo_true_head rest c z hcr
          have hnd : noDoubleSpace (c :: z) = true := hcr ▸ ih true
          rw [noDoubleSpace_cons]
          simp [beq_space_eq_false hc, hnd]
    · have hu : collapseGo b (a :: rest) = a :: collapseGo false rest := by
        simp [collapseGo, ha]
      rw [hu]
      cases hcr : collapseGo false rest with
      | nil => simp [noDoubleSpace]
      | cons c z =>
        have hnd : noDoubleSpace (c :: z) = true := hcr ▸ ih false
        rw [noDoubleSpace_cons]
        simp [beq_space_eq_false (bool_eq_false ha), hnd]

/-- Characters of `rstrip l` come from `l`. -/
lemma mem_of_mem_rstrip : ∀ (l : List Char) (c : Char), c ∈ rstrip l → c ∈ l := by
  intro l
  induction l with
  | nil => intro c hc; simp [rstrip] at hc
  | cons a rest ih =>
    intro c hc
    simp only [rstrip] at hc
    by_cases hb : rstrip rest = [] ∧ isPySpace a = true
    · rw [if_pos hb] at hc
      simp at hc
    · rw [if_neg hb] at hc
      rcases List.mem_cons.mp hc with h | h
      · exact h ▸ List.mem_cons_self _ _
      · exact List.mem_cons_of_mem _ (ih c h)

/-- `rstrip` keeps the head character when its result is non-empty. -/
lemma rstrip_cons_head : ∀ (a : Char) (l : List Char) (c : Char) (z : List Char),
    rstrip (a :: l) = c :: z → c = a := by
  intro a l c z h
  simp only [rstrip] at h
  by_cases hb : rstrip l = [] ∧ isPySpace a = true
  · rw [if_pos hb] at h
    cases h
  · rw [if_neg hb] at h
    cases h
    rfl

/-- The last character of a non-empty `rstrip` is not whitespace. -/
lemma rstrip_getLast : ∀ (l : List Char) (c : Char),
    (rstrip l).getLast? = some c → isPySpace c = false := by
  intro l
  induction l with
  | nil => intro c hc; simp [rstrip] at hc
  | cons a rest ih =>
    intro c hc
    simp only [rstrip] at hc
    by_cases hb : rstrip rest = [] ∧ isPySpace a = true
    · rw [if_pos hb] at hc
      cases hc
    · rw [if_neg hb] at hc
      cases hr : rstrip rest with
      | nil =>
        rw [hr] at hc
        simp at hc
        subst hc
        rcases Decidable.not_and_iff_or_not.mp hb with h | h
        · exact absurd hr h
        · simpa using h
      | cons c2 z =>
        rw [hr, List.getLast?_cons_cons] at hc
        rw [← hr] at hc
        exact ih c hc

/-- `rstrip` of a list headed by a non-whitespace character is non-empty. -/
lemma rstrip_cons_ne_nil {c : Char} (l : List Char) (h : isPySpace c = false) :
    rstrip (c :: l) ≠ [] := by
  simp only [rstrip]
  rw [if_neg (fun hb => by rw [h] at hb; exact Bool.noConfusion hb.2)]
  exact List.cons_ne_nil _ _

/-- `rstrip` preserves the absence of double spaces. -/
lemma rstrip_noDouble : ∀ (l : List Char), noDoubleSpace l = true →
    noDoubleSpace (rstrip l) = true := by
  intro l
  induction l with
  | nil => intro _; simp [rstrip, noDoubleSpace]
  | cons a rest ih =>
    intro h
    rw [noDoubleSpace_cons] at h
    obtain ⟨hpair, hrest⟩ := Bool.and_eq_true_iff.mp h
    simp only [rstrip]
    by_cases hb : rstrip rest = [] ∧ isPySpace a = true
    · rw [if_pos hb]
      simp [noDoubleSpace]
    · rw [if_neg hb]
      cases hr : rstrip rest with
      | nil => simp [noDoubleSpace]
      | cons c z =>
        rw [noDoubleSpace_cons]
        have hcz : noDoubleSpace (c :: z) = true := hr ▸ ih hrest
        cases rest with
        | nil => simp [rstrip] at hr
        | cons a2 r2 =>
          have hc : c = a2 := rstrip_cons_head a2 r2 c z hr
          subst hc
          simp only [List.head?_cons] at hpair
          simp [hpair, hcz]

/-- Characters of `dropWhile` come from the list. -/
lemma mem_of_mem_dropWhile : ∀ (l : List Char) (c : Char),
    c ∈ l.dropWhile isPySpace → c ∈ l := by
  intro l
  induction l with
  | nil => intro c hc; simp at hc
  | cons a rest ih =>
    intro c hc
    rw [List.dropWhile_cons] at hc
    by_cases ha : isPySpace a = true
    · rw [if_pos ha] at hc
      exact List.mem_cons_of_mem _ (ih c hc)
    · rw [if_neg ha] at hc
      exact hc

/-- The head of `dropWhile isPySpace` is not whitespace. -/
lemma dropWhile_head_not_space : ∀ (l : List Char) (c : Char) (z : List Char),
    l.dropWhile isPySpace = c :: z → isPySpace c = false := by
  intro l
  induction l with
  | nil => intro c z hc; simp at hc
  | cons a rest ih =>
    intro c z hc
    rw [List.dropWhile_cons] at hc
    by_cases ha : isPySpace a = true
    · rw [if_pos ha] at hc
      exact ih c z hc
    · rw [if_neg ha] at hc
      cases hc
      simpa using ha

/-- `dropWhile` preserves the absence of double spaces. -/
lemma dropWhile_noDouble : ∀ (l : List Char), noDoubleSpace l = true →
    noDoubleSpace (l.dropWhile isPySpace) = true := by
  intro l
  induction l with
  | nil => intro _; simpa
  | cons a rest ih =>
    intro h
    rw [noDoubleSpace_cons] at h
    obtain ⟨hpair, hrest⟩ := Bool.and_eq_true_iff.mp h
    rw [List.dropWhile_cons]
    by_cases ha : isPySpace a = true
    · rw [if_pos ha]
      exact ih hrest
    · rw [if_neg ha]
      rw [noDoubleSpace_cons]
      exact Bool.and_eq_true_iff.mpr ⟨hpair, hrest⟩

/-- A non-empty cleaned text satisfies the full text invariant. -/
lemma clean_normalized (l : List Char) (h : clean l ≠ []) :
    isNormalizedText (clean l) = true := by
  have hall : ∀ x ∈ clean l, isPySpace x = true → x = ' ' := by
    intro x hx hws
    exact collapseGo_space l false x
      (mem_of_mem_dropWhile _ x (mem_of_mem_rstrip _ x hx)) hws
  have hnd : noDoubleSpace (clean l) = true :=
    rstrip_noDouble _ (dropWhile_noDouble _ (collapseGo_noDouble l false))
  have hlast : ∀ x, (clean l).getLast? = some x → isPySpace x = false :=
    fun x hx => rstrip_getLast _ x hx
  cases hr : clean l with
  | nil => exact absurd hr h
  | cons c z =>
    have hcz : rstrip ((collapseGo false l).dropWhile isPySpace) = c :: z := hr
    have hdne : (collapseGo false l).dropWhile isPySpace ≠ [] := by
      intro hdnil
      rw [hdnil] at hcz
      simp [rstrip] at hcz
    obtain ⟨c0, d', hd'⟩ : ∃ c0 d',
        (collapseGo false l).dropWhile isPySpace = c0 :: d' := by
      cases hdd : (collapseGo false l).dropWhile isPySpace
      · exact absurd hdd hdne
      · exact ⟨_, _, rfl⟩
    have hc0 : c = c0 := by
      rw [hd'] at hcz
      exact rstrip_cons_head c0 d' c z hcz
    have hcws : isPySpace c = false := hc0 ▸ dropWhile_head_not_space _ c0 d' hd'
    rw [hr] at hall hnd hlast
    simp only [isNormalizedText, List.isEmpty_cons, Bool.not_false, Bool.true_and,
      List.head?_cons, Bool.and_eq_true, List.all_eq_true]
    refine ⟨⟨⟨by simp [hcws], ?_⟩, ?_⟩, hnd⟩
    · cases hgl : (c :: z).getLast? with
      | none => simp at hgl
      | some x => simp [hlast x hgl]
    · intro x hx
      by_cases hws : isPySpace x = true
      · simp [hall x hx hws]
      · simp [bool_eq_false hws]

/-- Cleaning a list headed by a non-whitespace character is non-empty. -/
lemma clean_of_head_not_space (c : Char) (z : List Char) (hc : isPySpace c = false) :
    clean (c :: z) ≠ [] := by
  have h1 : collapseGo false (c :: z) = c :: collapseGo false z := by
    simp [collapseGo, hc]
  have h2 : (c :: collapseGo false z).dropWhile isPySpace =
      c :: collapseGo false z := by
    rw [List.dropWhile_cons,
      if_neg (fun hcc => by rw [hc] at hcc; exact Bool.noConfusion hcc)]
  show rstrip ((collapseGo false (c :: z)).dropWhile isPySpace) ≠ []
  rw [h1, h2]
  exact rstrip_cons_ne_nil _ hc

/-- Cleaning a non-empty stripped text gives a non-empty text. -/
lemma pyStrip_clean_ne_nil (x : List Char) (h : pyStrip x ≠ []) :
    clean (pyStrip x) ≠ [] := by
  cases hp : pyStrip x with
  | nil => exact absurd hp h
  | cons c z =>
    have hdne : x.dropWhile isPySpace ≠ [] := by
      intro hd
      unfold pyStrip at hp
      rw [hd] at hp
      simp [rstrip] at hp
    obtain ⟨c0, d', hd'⟩ : ∃ c0 d', x.dropWhile isPySpace = c0 :: d' := by
      cases hdd : x.dropWhile isPySpace
      · exact absurd hdd hdne
      · exact ⟨_, _, rfl⟩
    have hc0 : c = c0 := by
      unfold pyStrip at hp
      rw [hd'] at hp
      exact rstrip_cons_head c0 d' c z hp
    have hcws : isPySpace c = false := hc0 ▸ dropWhile_head_not_space x c0 d' hd'
    exact clean_of_head_not_space c z hcws

/-- Retained plain-text paragraphs are cleaned, non-empty and long enough. -/
lemma mem_splitIntoParagraphs {text : List Char} {m : Nat} {p : List Char}
    (h : p ∈ splitIntoParagraphs text m) :
    (∃ x, p = clean x) ∧ p ≠ [] ∧ m ≤ p.length := by
  unfold splitIntoParagraphs at h
  obtain ⟨hmem, hfilter⟩ := List.mem_filter.mp h
  obtain ⟨x, _, hclean⟩ := List.mem_map.mp hmem
  simp only [Bool.and_eq_true, Bool.not_eq_true', List.isEmpty_eq_false_iff_exists_mem,
    decide_eq_true_eq] at hfilter
  refine ⟨⟨x, hclean.symm⟩, ?_, hfilter.2⟩
  obtain ⟨_, hy⟩ := hfilter.1
  exact List.ne_nil_of_mem hy

/-- Texts of `txtGo` passages come from the accumulator or the paragraph
list. -/
lemma txtGo_text_mem (gen : Nat → String) :
    ∀ (ps : List (List Char)) (i : Nat) (acc : List Passage) (p : Passage),
      p ∈ txtGo gen ps i acc → p ∈ acc ∨ p.text ∈ ps := by
  intro ps
  induction ps with
  | nil => intro i acc p h; exact Or.inl h
  | cons q rest ih =>
    intro i acc p h
    rcases ih (i + 1) _ p h with h' | h'
    · rcases List.mem_append.mp h' with h'' | h''
      · exact Or.inl h''
      · right
        simp at h''
        rw [h'']
        exact List.mem_cons_self _ _
    · exact Or.inr (List.mem_cons_of_mem _ h')

/-- Every passage appended by the PDF block step has normalized text. -/
lemma pdfBlockStep_mem {gen : Nat → String} {ns : ℚ} {pn : Nat}
    {acc : List Passage} {b : Block} {p : Passage}
    (h : p ∈ pdfBlockStep gen ns pn acc b) :
    p ∈ acc ∨ isNormalizedText p.text = true := by
  unfold pdfBlockStep at h
  by_cases ht : b.typ ≠ 0
  · rw [if_pos ht] at h
    exact Or.inl h
  · rw [if_neg ht] at h
    by_cases hsk : ((blockText b).isEmpty = true ∨ (blockText b).length < 3)
    · rw [if_pos hsk] at h
      exact Or.inl h
    · rw [if_neg hsk] at h
      rcases List.mem_append.mp h with h' | h'
      · exact Or.inl h'
      · right
        simp at h'
        rw [h']
        have hne : blockText b ≠ [] := by
          intro hn
          exact hsk (Or.inl (by rw [hn]; rfl))
        exact clean_normalized _ hne

/-- Every passage of a PDF page fold has normalized text or was
accumulated before. -/
lemma pdfPageFold_mem {gen : Nat → String} {ns : ℚ} {pn : Nat} :
    ∀ (page : PdfPage) (acc : List Passage) (p : Passage),
      p ∈ page.foldl (pdfBlockStep gen ns pn) acc →
      p ∈ acc ∨ isNormalizedText p.text = true := by
  intro page
  induction page with
  | nil => intro acc p h; exact Or.inl h
  | cons b rest ih =>
    intro acc p h
    rcases ih _ p h with h' | h'
    · exact pdfBlockStep_mem h'
    · exact Or.inr h'

/-- Every passage of pass 2 has normalized text or was accumulated
before. -/
lemma pdfPagesGo_mem {gen : Nat → String} {ns : ℚ} :
    ∀ (pages : List PdfPage) (pn : Nat) (acc : List Passage) (p : Passage),
      p ∈ pdfPagesGo gen ns pages pn acc →
      p ∈ acc ∨ isNormalizedText p.text = true := by
  intro pages
  induction pages with
  | nil => intro pn acc p h; exact Or.inl h
  | cons page rest ih =>
    intro pn acc p h
    rcases ih (pn + 1) _ p h with h' | h'
    · exact pdfPageFold_mem page acc p h'
    · exact Or.inr h'

/-- Every passage appended by the DOCX step has normalized text. -/
lemma docxStep_mem {gen : Nat → String} {acc : List Passage} {para : DocxPara}
    {p : Passage} (h : p ∈ docxStep gen acc para) :
    p ∈ acc ∨ isNormalizedText p.text = true := by
  unfold docxStep at h
  by_cases hskip : (pyStrip para.text).isEmpty = true
  · rw [if_pos hskip] at h
    exact Or.inl h
  · rw [if_neg hskip] at h
    by_cases hkeep : (5 < (clean (pyStrip para.text)).length ∨
        docxParaStyle acc.isEmpty (para.styleName.getD [])
          (clean (pyStrip para.text)).length = .title ∨
        docxParaStyle acc.isEmpty (para.styleName.getD [])
          (clean (pyStrip para.text)).length = .heading ∨
        docxParaStyle acc.isEmpty (para.styleName.getD [])
          (clean (pyStrip para.text)).length = .author)
    · rw [if_pos hkeep] at h
      rcases List.mem_append.mp h with h' | h'
      · exact Or.inl h'
      · right
        simp at h'
        rw [h']
        have hne : pyStrip para.text ≠ [] := by
          intro hn
          rw [hn] at hskip
          exact hskip rfl
        exact clean_normalized _ (pyStrip_clean_ne_nil _ hne)
    · rw [if_neg hkeep] at h
      exact Or.inl h

/-- Every passage of the DOCX fold has normalized text or was accumulated
before. -/
lemma docxFold_mem {gen : Nat → String} :
    ∀ (paras : List DocxPara) (acc : List Passage) (p : Passage),
      p ∈ paras.foldl (docxStep gen) acc →
      p ∈ acc ∨ isNormalizedText p.text = true := by
  intro paras
  induction paras with
  | nil => intro acc p h; exact Or.inl h
  | cons para rest ih =>
    intro acc p h
    rcases ih _ p h with h' | h'
    · exact docxStep_mem h'
    · exact Or.inr h'

/-- Claim C8: every passage returned by any of the three strategies has
text that is non-empty, not whitespace-only, internally collapsed to single
spaces and free of leading or trailing whitespace — `isNormalizedText`. -/
theorem passage_text_normalized :
    (∀ gen text p, p ∈ parse_txt gen text → isNormalizedText p.text = true) ∧
    (∀ gen doc p, p ∈ parse_pdf gen doc → isNormalizedText p.text = true) ∧
    (∀ gen paras p, p ∈ parse_docx gen paras → isNormalizedText p.text = true) := by
  refine ⟨?_, ?_, ?_⟩
  · intro gen text p h
    rcases txtGo_text_mem gen _ 0 [] p h with h' | h'
    · simp at h'
    · obtain ⟨⟨x, hx⟩, hne, _⟩ := mem_splitIntoParagraphs h'
      rw [hx]
      exact clean_normalized x (hx ▸ hne)
  · intro gen doc p h
    rcases pdfPagesGo_mem doc 1 [] p h with h' | h'
    · simp at h'
    · exact h'
  · intro gen paras p h
    rcases docxFold_mem paras [] p h with h' | h'
    · simp at h'
    · exact h'

/-- Witness for C8 at a concrete plain-text extraction. -/
theorem passage_text_normalized_witness :
    isNormalizedText (Passage.mk "" "ab cd".toList none .title).text = true :=
  passage_text_normalized.1 (fun _ => "") "ab cd".toList
    (Passage.mk "" "ab cd".toList none .title) (by decide)

/-! ## C1: PDF style classification -/

/-- The style branch of the source equals the claim's disjoint case
analysis. -/
lemma pdfStyle_eq_claim (r : ℚ) (bold : Bool) (n : Nat) (page : Nat)
    (prevTitle : Bool) :
    pdfStyle r bold n page prevTitle = claimPdfStyle r bold n page prevTitle := by
  unfold pdfStyle claimPdfStyle
  by_cases h1 : (3 : ℚ) / 2 ≤ r
  · rw [if_pos h1, if_pos h1]
  · rw [if_neg h1, if_neg h1]
    by_cases h2 : ((6 : ℚ) / 5 ≤ r ∨ bold = true)
    · rw [if_pos h2]
      by_cases h3 : n < 100
      · rw [if_pos h3]
        by_cases h4 : (page = 1 ∧ prevTitle = true)
        · rw [if_pos h4, if_pos ⟨h2, h3, h4.1, h4.2⟩]
        · rw [if_neg h4, if_neg (fun hc => h4 ⟨hc.2.2.1, hc.2.2.2⟩),
            if_pos ⟨h2, h3⟩]
      · rw [if_neg h3, if_neg (fun hc => h3 hc.2.1), if_neg (fun hc => h3 hc.2),
          if_pos ⟨h2, by omega⟩]
    · rw [if_neg h2, if_neg (fun hc => h2 hc.1), if_neg (fun hc => h2 hc.1),
        if_neg (fun hc => h2 hc.1)]

/-- A text block that survives the guards is appended with the computed
style. -/
lemma pdfBlockStep_emit {gen : Nat → String} {ns : ℚ} {pn : Nat}
    {acc : List Passage} {b : Block} (ht : b.typ = 0)
    (hlen : ¬((blockText b).isEmpty = true ∨ (blockText b).length < 3)) :
    pdfBlockStep gen ns pn acc b =
      acc ++ [⟨gen acc.length, blockText b, some pn,
        pdfStyle (pdfSizeRatio ns (blockMaxFontSize b)) (blockIsBold b)
          (blockText b).length pn (lastIsTitle acc)⟩] := by
  unfold pdfBlockStep
  rw [if_neg (by simp [ht]), if_neg hlen]

/-- Evaluation of the 1.5 × example: the second block is a `title`. -/
lemma c1DocA_eval : parse_pdf (fun _ => "") c1DocA =
    [⟨"", "This is the main body text of the document here".toList, some 1, .paragraph⟩,
     ⟨"", "Big Title".toList, some 1, .title⟩] := by
  have hns : pdfNormalSize c1DocA = 10 := by decide
  have hstep1 : pdfBlockStep (fun _ => "") 10 1 [] c1BodyBlock =
      [⟨"", "This is the main body text of the document here".toList, some 1,
        .paragraph⟩] := by
    rw [pdfBlockStep_emit (by decide) (by decide),
      show blockText c1BodyBlock =
        "This is the main body text of the document here".toList from by decide,
      show blockMaxFontSize c1BodyBlock = 10 from by decide,
      show blockIsBold c1BodyBlock = false from by decide,
      show lastIsTitle [] = false from rfl,
      show pdfSizeRatio (10 : ℚ) 10 = 1 from by norm_num [pdfSizeRatio],
      show ("This is the main body text of the document here".toList).length = 47
        from by decide,
      show pdfStyle 1 false 47 1 false = .paragraph from by norm_num [pdfStyle]]
    rfl
  have hstep2 : pdfBlockStep (fun _ => "") 10 1
      [⟨"", "This is the main body text of the document here".toList, some 1,
        .paragraph⟩] c1TitleBlock =
      [⟨"", "This is the main body text of the document here".toList, some 1,
        .paragraph⟩, ⟨"", "Big Title".toList, some 1, .title⟩] := by
    rw [pdfBlockStep_emit (by decide) (by decide),
      show blockText c1TitleBlock = "Big Title".toList from by decide,
      show blockMaxFontSize c1TitleBlock = 15 from by decide,
      show blockIsBold c1TitleBlock = false from by decide,
      show lastIsTitle [⟨"", "This is the main body text of the document here".toList,
        some 1, .paragraph⟩] = false from by decide,
      show pdfSizeRatio (10 : ℚ) 15 = 3 / 2 from by norm_num [pdfSizeRatio],
      show ("Big Title".toList).length = 9 from by decide,
      show pdfStyle ((3 : ℚ) / 2) false 9 1 false = .title from by
        unfold pdfStyle
        rw [if_pos (le_refl _)]]
    rfl
  show pdfPagesGo (fun _ => "") (pdfNormalSize c1DocA) c1DocA 1 [] = _
  rw [hns]
  show pdfPagesGo (fun _ => "") 10 [[c1BodyBlock, c1TitleBlock]] 1 [] = _
  simp only [pdfPagesGo, List.foldl_cons, List.foldl_nil]
  rw [hstep1, hstep2]

/-- Evaluation of the 1.19 × example: the 50-character non-bold block is a
plain `paragraph`. -/
lemma c1DocB_eval : parse_pdf (fun _ => "") c1DocB =
    [⟨"", List.replicate 60 'b', some 1, .paragraph⟩,
     ⟨"", List.replicate 50 'a', some 1, .paragraph⟩] := by
  have hns : pdfNormalSize c1DocB = 100 := by decide
  have hstep1 : pdfBlockStep (fun _ => "") 100 1 [] c1BodyBlockB =
      [⟨"", List.replicate 60 'b', some 1, .paragraph⟩] := by
    rw [pdfBlockStep_emit (by decide) (by decide),
      show blockText c1BodyBlockB = List.replicate 60 'b' from by decide,
      show blockMaxFontSize c1BodyBlockB = 100 from by decide,
      show blockIsBold c1BodyBlockB = false from by decide,
      show lastIsTitle [] = false from rfl,
      show pdfSizeRatio (100 : ℚ) 100 = 1 from by norm_num [pdfSizeRatio],
      show (List.replicate 60 'b').length = 60 from by decide,
      show pdfStyle 1 false 60 1 false = .paragraph from by norm_num [pdfStyle]]
    rfl
  have hstep2 : pdfBlockStep (fun _ => "") 100 1
      [⟨"", List.replicate 60 'b', some 1, .paragraph⟩] c1SmallBlockB =
      [⟨"", List.replicate 60 'b', some 1, .paragraph⟩,
       ⟨"", List.replicate 50 'a', some 1, .paragraph⟩] := by
    rw [pdfBlockStep_emit (by decide) (by decide),
      show blockText c1SmallBlockB = List.replicate 50 'a' from by decide,
      show blockMaxFontSize c1SmallBlockB = 119 from by decide,
      show blockIsBold c1SmallBlockB = false from by decide,
      show lastIsTitle [⟨"", List.replicate 60 'b', some 1, .paragraph⟩] = false
        from by decide,
      show pdfSizeRatio (100 : ℚ) 119 = 119 / 100 from by norm_num [pdfSizeRatio],
      show (List.replicate 50 'a').length = 50 from by decide,
      show pdfStyle ((119 : ℚ) / 100) false 50 1 false = .paragraph from by
        norm_num [pdfStyle]]
    rfl
  show pdfPagesGo (fun _ => "") (pdfNormalSize c1DocB) c1DocB 1 [] = _
  rw [hns]
  show pdfPagesGo (fun _ => "") 100 [[c1BodyBlockB, c1SmallBlockB]] 1 [] = _
  simp only [pdfPagesGo, List.foldl_cons, List.foldl_nil]
  rw [hstep1, hstep2]

/-- Claim C1: the style of every emitted PDF block is determined by
`size_ratio` (treated as 1 on a zero modal size), boldness, cleaned length,
page number and whether the immediately preceding emitted passage is a
title, exactly as the claim's case analysis states; an exactly-1.5 × block
is a `title` and a 1.19 × non-bold block of length 50 is a `paragraph`. -/
theorem pdf_style_classification :
    (∀ (r : ℚ) (bold : Bool) (n page : Nat) (prevTitle : Bool),
      pdfStyle r bold n page prevTitle = claimPdfStyle r bold n page prevTitle) ∧
    (∀ m : ℚ, pdfSizeRatio 0 m = 1) ∧
    parse_pdf (fun _ => "") c1DocA =
      [⟨"", "This is the main body text of the document here".toList, some 1, .paragraph⟩,
       ⟨"", "Big Title".toList, some 1, .title⟩] ∧
    parse_pdf (fun _ => "") c1DocB =
      [⟨"", List.replicate 60 'b', some 1, .paragraph⟩,
       ⟨"", List.replicate 50 'a', some 1, .paragraph⟩] := by
  refine ⟨pdfStyle_eq_claim, ?_, c1DocA_eval, c1DocB_eval⟩
  intro m
  simp [pdfSizeRatio]

/-! ## C4: plain-text segmentation.  The regex split of the source and the
spec's description of paragraph breaks produce the same cleaned
paragraphs. -/

/-- `re.split` always produces at least one fragment. -/
lemma reGo_ne_nil : ∀ (s : List Char) (k : Nat), reGo s k ≠ [] := by
  intro s
  induction s with
  | nil => intro k; simp [reGo]
  | cons c rest ih =>
    intro k
    cases k with
    | succ k => simpa [reGo] using ih k
    | zero =>
      simp only [reGo]
      split
      · exact List.cons_ne_nil _ _
      · split
        · exact List.cons_ne_nil _ _
        · exact List.cons_ne_nil _ _

/-- The spec split always produces at least one fragment. -/
lemma specGo_ne_nil : ∀ (s : List Char) (k : Nat), specGo s k ≠ [] := by
  intro s
  induction s with
  | nil => intro k; simp [specGo]
  | cons c rest ih =>
    intro k
    cases k with
    | succ k => simpa [specGo] using ih k
    | zero =>
      simp only [specGo]
      split
      · exact List.cons_ne_nil _ _
      · split
        · exact List.cons_ne_nil _ _
        · exact List.cons_ne_nil _ _

/-- Skipping `k` characters is dropping them. -/
lemma reGo_skip : ∀ (k : Nat) (s : List Char), reGo s k = reGo (s.drop k) 0 := by
  intro k
  induction k with
  | zero => intro s; rw [List.drop_zero]
  | succ k ih =>
    intro s
    cases s with
    | nil => simp [reGo]
    | cons c rest =>
      rw [List.drop_succ_cons]
      simpa [reGo] using ih rest

/-- Skipping `k` characters is dropping them. -/
lemma specGo_skip : ∀ (k : Nat) (s : List Char), specGo s k = specGo (s.drop k) 0 := by
  intro k
  induction k with
  | zero => intro s; rw [List.drop_zero]
  | succ k ih =>
    intro s
    cases s with
    | nil => simp [specGo]
    | cons c rest =>
      rw [List.drop_succ_cons]
      simpa [specGo] using ih rest

/-- `takeWhile` over an append stops inside the first part when some
element of it falsifies the predicate. -/
lemma takeWhile_append_stop {p : Char → Bool} : ∀ (l1 l2 : List Char),
    (∃ x ∈ l1, p x = false) → (l1 ++ l2).takeWhile p = l1.takeWhile p := by
  intro l1
  induction l1 with
  | nil =>
    intro l2 h
    obtain ⟨x, hx, _⟩ := h
    simp at hx
  | cons a r ih =>
    intro l2 h
    obtain ⟨x, hx, hpx⟩ := h
    by_cases hpa : p a = true
    · rw [List.cons_append, List.takeWhile_cons, if_pos hpa, List.takeWhile_cons,
        if_pos hpa]
      congr 1
      apply ih
      rcases List.mem_cons.mp hx with h' | h'
      · subst h'
        rw [hpa] at hpx
        cases hpx
      · exact ⟨x, h', hpx⟩
    · rw [List.cons_append, List.takeWhile_cons, if_neg hpa, List.takeWhile_cons,
        if_neg hpa]

/-- `takeWhile` passes through an all-satisfying first part. -/
lemma takeWhile_append_all {p : Char → Bool} : ∀ (l1 l2 : List Char),
    (∀ x ∈ l1, p x = true) → (l1 ++ l2).takeWhile p = l1 ++ l2.takeWhile p := by
  intro l1
  induction l1 with
  | nil => intro l2 _; simp
  | cons a r ih =>
    intro l2 h
    rw [List.cons_append, List.takeWhile_cons,
      if_pos (h a (List.mem_cons_self _ _)), ih l2 (fun x hx => h x (List.mem_cons_of_mem _ hx))]
    rfl

/-- `dropWhile` drops an all-satisfying first part entirely. -/
lemma dropWhile_append_all {p : Char → Bool} : ∀ (l1 l2 : List Char),
    (∀ x ∈ l1, p x = true) → (l1 ++ l2).dropWhile p = l2.dropWhile p := by
  intro l1
  induction l1 with
  | nil => intro l2 _; simp
  | cons a r ih =>
    intro l2 h
    rw [List.cons_append, List.dropWhile_cons, if_pos (h a (List.mem_cons_self _ _))]
    exact ih l2 (fun x hx => h x (List.mem_cons_of_mem _ hx))

/-- The part after the last newline is a suffix. -/
lemma afterLastNewline_suffix (l : List Char) : afterLastNewline l <:+ l := by
  unfold afterLastNewline
  have h := List.takeWhile_prefix (l := l.reverse) (p := fun c => decide ¬(c = '\n'))
  have h2 := List.reverse_suffix.mpr h
  rwa [List.reverse_reverse] at h2

/-- The part after the last newline contains no newline. -/
lemma not_mem_afterLastNewline (l : List Char) : '\n' ∉ afterLastNewline l := by
  intro h
  unfold afterLastNewline at h
  rw [List.mem_reverse] at h
  have := List.mem_takeWhile_imp h
  simp at this

/-- Below the last newline of the tail, a head character is irrelevant. -/
lemma afterLastNewline_cons {c : Char} {l : List Char} (h : '\n' ∈ l) :
    afterLastNewline (c :: l) = afterLastNewline l := by
  unfold afterLastNewline
  rw [List.reverse_cons, takeWhile_append_stop]
  exact ⟨'\n', List.mem_reverse.mpr h, by simp⟩

/-- Dropping down to a suffix of the left part of an append. -/
lemma drop_sub_length_of_suffix {t l : List Char} (h : t <:+ l) (d : List Char) :
    (l ++ d).drop (l.length - t.length) = t ++ d := by
  obtain ⟨u, hu⟩ := h
  rw [← hu]
  have hlen : (u ++ t).length - t.length = u.length := by simp
  rw [hlen, List.append_assoc, List.drop_left]

/-- Dropping the measured prefix is `dropWhile`. -/
lemma drop_length_takeWhile (l : List Char) (p : Char → Bool) :
    l.drop (l.takeWhile p).length = l.dropWhile p := by
  conv_lhs =>
    arg 2
    rw [← List.takeWhile_append_dropWhile (p := p) (l := l)]
  exact List.drop_left _ _

/-- A `re.split` separator match: at a newline whose following whitespace
run holds another newline, the match removes everything through the last
newline of the run. -/
lemma reSplit_cut {rest : List Char}
    (hcont : (rest.takeWhile isPySpace).contains '\n' = true) :
    reSplitParas ('\n' :: rest) =
      [] :: reSplitParas (afterLastNewline (rest.takeWhile isPySpace) ++
        rest.dropWhile isPySpace) := by
  have halnsuffix := afterLastNewline_suffix (rest.takeWhile isPySpace)
  unfold reSplitParas
  have hmem : '\n' ∈ rest.takeWhile isPySpace := by
    simpa using hcont
  have h1 : reGo ('\n' :: rest) 0 = [] :: reGo rest
      ((rest.takeWhile isPySpace).length -
        (afterLastNewline (rest.takeWhile isPySpace)).length) := by
    simp [reGo, hmem]
  rw [h1, reGo_skip]
  have hsplit := List.takeWhile_append_dropWhile (p := isPySpace) (l := rest)
  rw [show rest.drop ((rest.takeWhile isPySpace).length -
      (afterLastNewline (rest.takeWhile isPySpace)).length) =
      afterLastNewline (rest.takeWhile isPySpace) ++ rest.dropWhile isPySpace from by
    conv_lhs =>
      arg 2
      rw [← hsplit]
    exact drop_sub_length_of_suffix halnsuffix _]

/-- No separator starts at this character. -/
lemma reSplit_nocut {c : Char} {rest : List Char}
    (h : ¬(c = '\n' ∧ (rest.takeWhile isPySpace).contains '\n' = true)) :
    reSplitParas (c :: rest) = consHead c (reSplitParas rest) := by
  unfold reSplitParas
  simp only [reGo, if_neg h]
  cases hr : reGo rest 0 with
  | nil => exact absurd hr (reGo_ne_nil rest 0)
  | cons p ps => simp [consHead]

/-- A spec paragraph break: the whole whitespace run is removed. -/
lemma specSplit_cut {c : Char} {rest : List Char}
    (h2 : 2 ≤ ((c :: rest).takeWhile isPySpace).count '\n') :
    specSplitParas (c :: rest) = [] :: specSplitParas (rest.dropWhile isPySpace) := by
  have hcws : isPySpace c = true := by
    by_contra hc
    rw [List.takeWhile_cons, if_neg hc] at h2
    simp at h2
  unfold specSplitParas
  have h1 : specGo (c :: rest) 0 = [] :: specGo rest
      (((c :: rest).takeWhile isPySpace).length - 1) := by
    simp [specGo, h2]
  rw [h1, specGo_skip, List.takeWhile_cons, if_pos hcws, List.length_cons,
    Nat.add_sub_cancel, drop_length_takeWhile]

/-- No spec paragraph break starts at this character. -/
lemma specSplit_nocut {c : Char} {rest : List Char}
    (h : ¬2 ≤ ((c :: rest).takeWhile isPySpace).count '\n') :
    specSplitParas (c :: rest) = consHead c (specSplitParas rest) := by
  unfold specSplitParas
  simp only [specGo, if_neg h]
  cases hr : specGo rest 0 with
  | nil => exact absurd hr (specGo_ne_nil rest 0)
  | cons p ps => simp [consHead]

/-- `dropWhile` never lengthens a list. -/
lemma length_dropWhile_le (l : List Char) (p : Char → Bool) :
    (l.dropWhile p).length ≤ l.length := by
  induction l with
  | nil => simp
  | cons a r ih =>
    rw [List.dropWhile_cons]
    by_cases hp : p a = true
    · rw [if_pos hp]
      exact le_trans ih (by simp)
    · rw [if_neg hp]

/-- The shape of `dropWhile isPySpace`: empty or non-whitespace-headed. -/
lemma dropWhile_shape (rest : List Char) :
    rest.dropWhile isPySpace = [] ∨
      ∃ c z, rest.dropWhile isPySpace = c :: z ∧ isPySpace c = false := by
  cases hdd : rest.dropWhile isPySpace with
  | nil => exact Or.inl rfl
  | cons c z => exact Or.inr ⟨c, z, rfl, dropWhile_head_not_space rest c z hdd⟩

/-- A newline-free whitespace prefix only rides along on the first
fragment of `re.split`. -/
lemma reSplit_ws_prefix : ∀ (w : List Char), (∀ x ∈ w, isPySpace x = true) →
    '\n' ∉ w →
    ∀ (t : List Char), (t = [] ∨ ∃ c z, t = c :: z ∧ isPySpace c = false) →
    reSplitParas (w ++ t) = prependHead w (reSplitParas t) := by
  intro w
  induction w with
  | nil =>
    intro _ _ t _
    cases hr : reSplitParas t with
    | nil => exact absurd hr (reGo_ne_nil t 0)
    | cons p ps =>
      simp only [List.nil_append, prependHead]
      exact hr
  | cons a w' ih =>
    intro hws hnl t ht
    have ha : isPySpace a = true := hws a (List.mem_cons_self _ _)
    have hanl : ¬(a = '\n') := fun h => hnl (h ▸ List.mem_cons_self _ _)
    rw [List.cons_append, reSplit_nocut (fun hc => hanl hc.1),
      ih (fun x hx => hws x (List.mem_cons_of_mem _ hx))
        (fun hx => hnl (List.mem_cons_of_mem _ hx)) t ht]
    cases hr : reSplitParas t with
    | nil => exact absurd hr (reGo_ne_nil t 0)
    | cons p ps => simp [consHead, prependHead]

/-- A whole qualifying whitespace run: `re.split` closes the current
fragment with the run's newline-free prefix, skips through the last
newline, and carries the newline-free suffix into the next fragment. -/
lemma reSplit_run : ∀ (r : List Char), (∀ x ∈ r, isPySpace x = true) →
    2 ≤ r.count '\n' →
    ∀ (t : List Char), (t = [] ∨ ∃ c z, t = c :: z ∧ isPySpace c = false) →
    ∃ r₀, (∀ x ∈ r₀, isPySpace x = true) ∧
      reSplitParas (r ++ t) =
        r₀ :: prependHead (afterLastNewline r) (reSplitParas t) := by
  intro r
  induction r with
  | nil => intro _ h2 _ _; simp at h2
  | cons a r' ih =>
    intro hws h2 t ht
    by_cases han : a = '\n'
    · subst han
      have hcnt : 1 ≤ r'.count '\n' := by
        rw [List.count_cons_self] at h2
        omega
      have hmem : '\n' ∈ r' := by
        by_contra hnm
        rw [List.count_eq_zero_of_not_mem hnm] at hcnt
        omega
      have hr'ws : ∀ x ∈ r', isPySpace x = true :=
        fun x hx => hws x (List.mem_cons_of_mem _ hx)
      have hrun : (r' ++ t).takeWhile isPySpace = r' := by
        rw [takeWhile_append_all r' t hr'ws]
        rcases ht with h | ⟨c, z, hczt, hc⟩
        · subst h; simp
        · subst hczt
          rw [List.takeWhile_cons, if_neg (by simp [hc])]
          simp
      have hdrop : (r' ++ t).dropWhile isPySpace = t := by
        rw [dropWhile_append_all r' t hr'ws]
        rcases ht with h | ⟨c, z, hczt, hc⟩
        · subst h; simp
        · subst hczt
          rw [List.dropWhile_cons, if_neg (by simp [hc])]
      have hcont : ((r' ++ t).takeWhile isPySpace).contains '\n' = true := by
        rw [hrun]
        simpa using hmem
      refine ⟨[], by simp, ?_⟩
      rw [List.cons_append, reSplit_cut hcont, hrun, hdrop,
        reSplit_ws_prefix (afterLastNewline r')
          (fun x hx => hr'ws x ((afterLastNewline_suffix r').subset hx))
          (not_mem_afterLastNewline r') t ht,
        afterLastNewline_cons hmem]
    · have ha : isPySpace a = true := hws a (List.mem_cons_self _ _)
      have h2' : 2 ≤ r'.count '\n' := by
        rw [List.count_cons_of_ne (Ne.symm han)] at h2
        exact h2
      have hmem : '\n' ∈ r' := by
        by_contra hnm
        rw [List.count_eq_zero_of_not_mem hnm] at h2'
        omega
      obtain ⟨r₀, hr₀ws, heq⟩ :=
        ih (fun x hx => hws x (List.mem_cons_of_mem _ hx)) h2' t ht
      refine ⟨a :: r₀, ?_, ?_⟩
      · intro x hx
        rcases List.mem_cons.mp hx with h' | h'
        · subst h'; exact ha
        · exact hr₀ws x h'
      · rw [List.cons_append, reSplit_nocut (fun hc => han hc.1), heq,
          afterLastNewline_cons hmem]
        simp [consHead]

/-- Aligned fragment lists stay aligned under a common head character. -/
lemma aligned_consHead (c : Char) {rs ss : List (List Char)}
    (h : AlignedSplits rs ss) :
    AlignedSplits (consHead c rs) (consHead c ss) := by
  cases rs with
  | nil => cases ss <;> simp [AlignedSplits] at h
  | cons p ps =>
    cases ss with
    | nil => simp [AlignedSplits] at h
    | cons q qs =>
      obtain ⟨⟨w, hw, hpq⟩, htail⟩ := h
      simp only [consHead]
      exact ⟨⟨w, hw, by simp [hpq]⟩, htail⟩

/-- Prepending whitespace to the first of two aligned fragment lists
yields whitespace-affixed pairs throughout. -/
lemma forall₂_prependHead {w : List Char} (hw : ∀ x ∈ w, isPySpace x = true)
    {rs ss : List (List Char)} (h : AlignedSplits rs ss) :
    List.Forall₂ WsAffix (prependHead w rs) ss := by
  cases rs with
  | nil => cases ss <;> simp [AlignedSplits] at h
  | cons p ps =>
    cases ss with
    | nil => simp [AlignedSplits] at h
    | cons q qs =>
      obtain ⟨⟨w₂, hw₂, hpq⟩, htail⟩ := h
      simp only [prependHead]
      exact List.Forall₂.cons
        ⟨w, w₂, hw, hw₂, by rw [hpq]; exact (List.append_assoc _ _ _).symm⟩ htail

/-- Main alignment: on every input the regex split of the source and the
spec's paragraph-break split stay aligned up to whitespace affixes. -/
lemma aligned_splits : ∀ (n : Nat) (s : List Char), s.length ≤ n →
    AlignedSplits (reSplitParas s) (specSplitParas s) := by
  intro n
  induction n with
  | zero =>
    intro s hs
    cases s with
    | nil => exact ⟨⟨[], by simp, rfl⟩, List.Forall₂.nil⟩
    | cons c rest => simp at hs
  | succ n ih =>
    intro s hs
    cases s with
    | nil => exact ⟨⟨[], by simp, rfl⟩, List.Forall₂.nil⟩
    | cons c rest =>
      have hrest : rest.length ≤ n := by
        simp only [List.length_cons] at hs
        omega
      by_cases h2 : 2 ≤ ((c :: rest).takeWhile isPySpace).count '\n'
      · have hcws : isPySpace c = true := by
          by_contra hc
          rw [List.takeWhile_cons, if_neg hc] at h2
          simp at h2
        have hrun : (c :: rest).takeWhile isPySpace =
            c :: rest.takeWhile isPySpace := by
          rw [List.takeWhile_cons, if_pos hcws]
        have hd := dropWhile_shape rest
        have hdlen : (rest.dropWhile isPySpace).length ≤ n :=
          le_trans (length_dropWhile_le rest isPySpace) hrest
        by_cases hcn : c = '\n'
        · subst hcn
          have hcnt' : 1 ≤ (rest.takeWhile isPySpace).count '\n' := by
            rw [hrun, List.count_cons_self] at h2
            omega
          have hmem : '\n' ∈ rest.takeWhile isPySpace := by
            by_contra hnm
            rw [List.count_eq_zero_of_not_mem hnm] at hcnt'
            omega
          have hcont : (rest.takeWhile isPySpace).contains '\n' = true := by
            simpa using hmem
          rw [reSplit_cut hcont, specSplit_cut h2,
            reSplit_ws_prefix (afterLastNewline (rest.takeWhile isPySpace))
              (fun x hx => List.mem_takeWhile_imp
                ((afterLastNewline_suffix _).subset hx))
              (not_mem_afterLastNewline _) _ hd]
          exact ⟨⟨[], by simp, rfl⟩,
            forall₂_prependHead
              (fun x hx => List.mem_takeWhile_imp
                ((afterLastNewline_suffix _).subset hx))
              (ih _ hdlen)⟩
        · have h2' : 2 ≤ (rest.takeWhile isPySpace).count '\n' := by
            rw [hrun, List.count_cons_of_ne (Ne.symm hcn)] at h2
            exact h2
          obtain ⟨r₀, hr₀ws, heq⟩ := reSplit_run (rest.takeWhile isPySpace)
            (fun x hx => List.mem_takeWhile_imp hx) h2'
            (rest.dropWhile isPySpace) hd
          rw [List.takeWhile_append_dropWhile] at heq
          rw [reSplit_nocut (fun hc => hcn hc.1), heq, specSplit_cut h2]
          simp only [consHead]
          refine ⟨⟨c :: r₀, ?_, by simp⟩, ?_⟩
          · intro x hx
            rcases List.mem_cons.mp hx with h' | h'
            · subst h'; exact hcws
            · exact hr₀ws x h'
          · exact forall₂_prependHead
              (fun x hx => List.mem_takeWhile_imp
                ((afterLastNewline_suffix _).subset hx))
              (ih _ hdlen)
      · have hnocut : ¬(c = '\n' ∧
            (rest.takeWhile isPySpace).contains '\n' = true) := by
          rintro ⟨hcn, hcont⟩
          subst hcn
          apply h2
          rw [List.takeWhile_cons, if_pos (by decide), List.count_cons_self]
          have hmem : '\n' ∈ rest.takeWhile isPySpace := by
            simpa using hcont
          have hpos : 0 < (rest.takeWhile isPySpace).count '\n' :=
            List.count_pos_iff.mpr hmem
          omega
        rw [reSplit_nocut hnocut, specSplit_nocut h2]
        exact aligned_consHead c (ih rest hrest)

/-- Collapsing skips a whitespace prefix while inside a run. -/
lemma collapseGo_true_ws_prefix : ∀ (w : List Char), (∀ c ∈ w, isPySpace c = true) →
    ∀ (x : List Char), collapseGo true (w ++ x) = collapseGo true x := by
  intro w
  induction w with
  | nil => intro _ x; rfl
  | cons a w' ih =>
    intro hw x
    rw [List.cons_append]
    show collapseGo true (a :: (w' ++ x)) = collapseGo true x
    simp only [collapseGo, if_pos (hw a (List.mem_cons_self _ _)), if_pos rfl]
    exact ih (fun c hc => hw c (List.mem_cons_of_mem _ hc)) x

/-- A leading space is invisible to `strip`. -/
lemma pyStrip_cons_space (z : List Char) : pyStrip (' ' :: z) = pyStrip z := by
  unfold pyStrip
  rw [List.dropWhile_cons, if_pos (by decide)]

/-- Up to stripping, it does not matter whether collapsing starts inside a
run. -/
lemma pyStrip_collapse_true_false : ∀ (x : List Char),
    pyStrip (collapseGo true x) = pyStrip (collapseGo false x) := by
  intro x
  induction x with
  | nil => rfl
  | cons a x' ih =>
    by_cases ha : isPySpace a = true
    · have h1 : collapseGo true (a :: x') = collapseGo true x' := by
        simp [collapseGo, ha]
      have h2 : collapseGo false (a :: x') = ' ' :: collapseGo true x' := by
        simp [collapseGo, ha]
      rw [h1, h2, pyStrip_cons_space]
    · have h1 : collapseGo true (a :: x') = a :: collapseGo false x' := by
        simp [collapseGo, ha]
      have h2 : collapseGo false (a :: x') = a :: collapseGo false x' := by
        simp [collapseGo, ha]
      rw [h1, h2]

/-- Cleaning ignores an all-whitespace prefix. -/
lemma clean_ws_prefix {w : List Char} (hw : ∀ c ∈ w, isPySpace c = true)
    (x : List Char) : clean (w ++ x) = clean x := by
  cases w with
  | nil => rfl
  | cons a w' =>
    show pyStrip (collapseGo false (a :: (w' ++ x))) = clean x
    have ha : isPySpace a = true := hw a (List.mem_cons_self _ _)
    have h1 : collapseGo false (a :: (w' ++ x)) = ' ' :: collapseGo true (w' ++ x) := by
      simp [collapseGo, ha]
    rw [h1, pyStrip_cons_space,
      collapseGo_true_ws_prefix w' (fun c hc => hw c (List.mem_cons_of_mem _ hc)) x,
      pyStrip_collapse_true_false]
    rfl

/-- `rstrip` erases an all-whitespace list. -/
lemma rstrip_all_ws : ∀ (w : List Char), (∀ c ∈ w, isPySpace c = true) →
    rstrip w = [] := by
  intro w
  induction w with
  | nil => intro _; rfl
  | cons a w' ih =>
    intro hw
    simp only [rstrip, ih (fun c hc => hw c (List.mem_cons_of_mem _ hc))]
    simp [hw a (List.mem_cons_self _ _)]

/-- `rstrip` ignores an all-whitespace suffix. -/
lemma rstrip_append_ws : ∀ (x w : List Char), (∀ c ∈ w, isPySpace c = true) →
    rstrip (x ++ w) = rstrip x := by
  intro x
  induction x with
  | nil => intro w hw; simpa using rstrip_all_ws w hw
  | cons a x' ih =>
    intro w hw
    rw [List.cons_append]
    show rstrip (a :: (x' ++ w)) = rstrip (a :: x')
    simp only [rstrip, ih w hw]

/-- Collapsing an all-whitespace suffix adds at most one final space. -/
lemma collapseGo_append_ws : ∀ (x : List Char) (b : Bool) (w : List Char),
    (∀ c ∈ w, isPySpace c = true) →
    collapseGo b (x ++ w) = collapseGo b x ∨
      collapseGo b (x ++ w) = collapseGo b x ++ [' '] := by
  intro x
  induction x with
  | nil =>
    intro b w hw
    cases w with
    | nil => exact Or.inl rfl
    | cons c w' =>
      have hc : isPySpace c = true := hw c (List.mem_cons_self _ _)
      have hw' : ∀ c' ∈ w', isPySpace c' = true :=
        fun c' hc' => hw c' (List.mem_cons_of_mem _ hc')
      have htail : collapseGo true w' = [] := by
        have := collapseGo_true_ws_prefix w' hw' []
        simpa using this
      cases b with
      | true =>
        refine Or.inl ?_
        show collapseGo true (c :: w') = collapseGo true []
        simp [collapseGo, hc, htail]
      | false =>
        refine Or.inr ?_
        show collapseGo false (c :: w') = collapseGo false [] ++ [' ']
        simp [collapseGo, hc, htail]
  | cons a x' ih =>
    intro b w hw
    rw [List.cons_append]
    by_cases ha : isPySpace a = true
    · have h1 : ∀ z, collapseGo b (a :: z) =
          (if b then collapseGo true z else ' ' :: collapseGo true z) := by
        intro z
        simp [collapseGo, ha]
      rw [h1, h1]
      rcases ih true w hw with h | h
      · rw [h]
        cases b <;> exact Or.inl rfl
      · rw [h]
        cases b with
        | true => exact Or.inr rfl
        | false => exact Or.inr (by simp)
    · have h1 : ∀ z, collapseGo b (a :: z) = a :: collapseGo false z := by
        intro z
        simp [collapseGo, ha]
      rw [h1, h1]
      rcases ih false w hw with h | h
      · rw [h]
        exact Or.inl rfl
      · rw [h]
        exact Or.inr (by simp)

/-- `dropWhile` passes over an append whose left part survives. -/
lemma dropWhile_append_ne_nil {p : Char → Bool} : ∀ (l t : List Char),
    l.dropWhile p ≠ [] → (l ++ t).dropWhile p = l.dropWhile p ++ t := by
  intro l
  induction l with
  | nil => intro t h; exact absurd rfl h
  | cons a r ih =>
    intro t h
    rw [List.cons_append, List.dropWhile_cons, List.dropWhile_cons]
    rw [List.dropWhile_cons] at h
    by_cases hp : p a = true
    · rw [if_pos hp, if_pos hp]
      rw [if_pos hp] at h
      exact ih t h
    · rw [if_neg hp, if_neg hp]
      rfl

/-- A single trailing space disappears under `strip`. -/
lemma pyStrip_append_space (l : List Char) : pyStrip (l ++ [' ']) = pyStrip l := by
  by_cases hd : l.dropWhile isPySpace = []
  · have hall : ∀ c ∈ l, isPySpace c = true := by
      intro c hc
      exact List.dropWhile_eq_nil_iff.mp hd c hc
    unfold pyStrip
    rw [dropWhile_append_all l [' '] hall, hd]
    rw [show ([' '] : List Char).dropWhile isPySpace = [] from by decide]
  · unfold pyStrip
    rw [dropWhile_append_ne_nil l [' '] hd,
      rstrip_append_ws _ [' '] (by intro c hc; simp at hc; subst hc; decide)]

/-- Cleaning ignores an all-whitespace suffix. -/
lemma clean_ws_suffix {w : List Char} (hw : ∀ c ∈ w, isPySpace c = true)
    (x : List Char) : clean (x ++ w) = clean x := by
  unfold clean collapseWs
  rcases collapseGo_append_ws x false w hw with h | h
  · rw [h]
  · rw [h, pyStrip_append_space]

/-- Whitespace-affixed paragraphs clean to the same text. -/
lemma clean_wsAffix {p q : List Char} (h : WsAffix p q) : clean p = clean q := by
  obtain ⟨w₁, w₂, h₁, h₂, hp⟩ := h
  rw [hp, show w₁ ++ q ++ w₂ = w₁ ++ (q ++ w₂) from List.append_assoc _ _ _,
    clean_ws_prefix h₁, clean_ws_suffix h₂]

/-- Whitespace-affixed fragment lists clean to the same texts. -/
lemma map_clean_forall₂ : ∀ {ps qs : List (List Char)},
    List.Forall₂ WsAffix ps qs → ps.map clean = qs.map clean := by
  intro ps qs h
  induction h with
  | nil => rfl
  | cons hpq _ ih => simp [clean_wsAffix hpq, ih]

/-- Aligned splits clean to the same texts. -/
lemma map_clean_aligned : ∀ {rs ss : List (List Char)}, AlignedSplits rs ss →
    rs.map clean = ss.map clean := by
  intro rs ss h
  cases rs with
  | nil => cases ss <;> simp [AlignedSplits] at h
  | cons p ps =>
    cases ss with
    | nil => simp [AlignedSplits] at h
    | cons q qs =>
      obtain ⟨⟨w, hw, hpq⟩, htail⟩ := h
      have hhead : clean p = clean q := by
        rw [hpq, clean_ws_suffix hw]
      simp [hhead, map_clean_forall₂ htail]

/-- The regex split of the source and the spec's paragraph-break split
produce the same cleaned fragments. -/
lemma map_clean_eq (s : List Char) :
    (reSplitParas s).map clean = (specSplitParas s).map clean :=
  map_clean_aligned (aligned_splits s.length s le_rfl)

/-- `txtGo` never sets a page number. -/
lemma txtGo_page_none (gen : Nat → String) :
    ∀ (ps : List (List Char)) (i : Nat) (acc : List Passage) (p : Passage),
      (∀ q ∈ acc, q.page = none) → p ∈ txtGo gen ps i acc → p.page = none := by
  intro ps
  induction ps with
  | nil => intro i acc p hacc h; exact hacc p h
  | cons q rest ih =>
    intro i acc p hacc h
    refine ih (i + 1) _ p ?_ h
    intro q' hq'
    rcases List.mem_append.mp hq' with h' | h'
    · exact hacc q' h'
    · simp at h'
      rw [h']

/-- Claim C4: the plain-text strategy splits the input exactly at the
spec's paragraph breaks (whitespace runs with at least two newlines),
cleans each paragraph, and discards the ones shorter than the 5-character
minimum, so a paragraph of normalized length 3 never appears; pages are
always absent. -/
theorem txt_segmentation :
    (∀ text min_length, splitIntoParagraphs text min_length =
      ((specSplitParas text).map clean).filter
        (fun cleaned => !cleaned.isEmpty && min_length ≤ cleaned.length)) ∧
    (∀ text p, p ∈ splitIntoParagraphs text 5 → 5 ≤ p.length ∧ p.length ≠ 3) ∧
    (∀ gen text p, p ∈ parse_txt gen text → p.page = none) := by
  refine ⟨?_, ?_, ?_⟩
  · intro text m
    unfold splitIntoParagraphs
    rw [map_clean_eq]
  · intro text p h
    obtain ⟨_, _, hlen⟩ := mem_splitIntoParagraphs h
    exact ⟨hlen, by omega⟩
  · intro gen text p h
    exact txtGo_page_none gen _ 0 [] p (by simp) h

/-- Witness for C4: a retained 5-character paragraph. -/
theorem txt_segmentation_witness :
    5 ≤ "abcde".toList.length ∧ "abcde".toList.length ≠ 3 :=
  txt_segmentation.2.1 "abcde".toList "abcde".toList (by decide)

end StepTranslate
